import Mathlib

/-!
Verification of the crawl-and-classify engine of a WordPress migration
crawler (src/tools/crawl_wordpress.py).

Strings are modelled as lists of characters (`Str`); Python functions that
can raise become `Except String` values.

The embedding of `urllib.parse.urlparse` follows CPython 3.11
(urllib/parse.py): WHATWG left-strip of C0 control characters and space,
removal of tab, CR and LF, scheme splitting at the first colon (requiring a
leading ASCII letter and scheme characters only), netloc splitting after a
leading "//" up to the first of the characters slash, question mark and
hash, the unbalanced-square-bracket ValueError, fragment splitting at the
first hash, query splitting at the first question mark, and params
splitting after the last slash for schemes in `uses_params`.  Unicode NFKC
netloc validation and bracketed-host (IPv6) validation are not modelled;
every theorem that relies on parsing never raising therefore restricts
itself to ASCII inputs without square brackets, for which CPython performs
no further checks.
-/

namespace Crawler

/-- Python strings, as lists of characters. -/
abbrev Str := List Char

/-- View of `Except` as a sum type, used to decide equality. -/
def exceptToSum {ε α : Type _} : Except ε α → ε ⊕ α
  | .error e => .inl e
  | .ok a => .inr a

instance {ε α : Type _} [DecidableEq ε] [DecidableEq α] :
    DecidableEq (Except ε α) := fun a b =>
  decidable_of_iff (exceptToSum a = exceptToSum b)
    (by cases a <;> cases b <;> simp [exceptToSum])

/-! ## Character helpers (ASCII semantics of `str.lower`, `str.isalpha`) -/

/-- ASCII lowercasing of one character, as Python `str.lower` acts on the
ASCII letters relevant to URL schemes. -/
def lowerChar (c : Char) : Char :=
  if 65 ≤ c.toNat ∧ c.toNat ≤ 90 then Char.ofNat (c.toNat + 32) else c

/-- Python `c.isascii() and c.isalpha()`. -/
def asciiAlpha (c : Char) : Bool :=
  decide ((65 ≤ c.toNat ∧ c.toNat ≤ 90) ∨ (97 ≤ c.toNat ∧ c.toNat ≤ 122))

/-- Membership in CPython `scheme_chars` (letters, digits, plus, minus, dot). -/
def isSchemeChar (c : Char) : Bool :=
  asciiAlpha c || decide (48 ≤ c.toNat ∧ c.toNat ≤ 57) ||
    decide (c = '+' ∨ c = '-' ∨ c = '.')

/-! ## List-of-char helpers shared by the model -/

/-- Python substring test `needle in hay`. -/
def hasSub (needle : Str) : Str → Bool
  | [] => needle.isEmpty
  | hay@(_ :: t) => needle.isPrefixOf hay || hasSub needle t

/-- Split at the first occurrence of `c`; the pair of the part before and
the part after (Python `s.split(c, 1)` when `c` occurs). -/
def splitFirst (c : Char) : Str → Str × Str
  | [] => ([], [])
  | x :: t =>
    if x = c then ([], t)
    else ((x :: (splitFirst c t).1), (splitFirst c t).2)

/-- Python `s.rstrip('/')`. -/
def rstripSlash (u : Str) : Str :=
  (u.reverse.dropWhile (fun c => decide (c = '/'))).reverse

/-- Python `s.endswith('/')`. -/
def lastIsSlash (u : Str) : Bool := decide (u.getLastD ' ' = '/')

/-- Python `s.split('/')`; the result is always nonempty. -/
def splitSlash : Str → List Str
  | [] => [[]]
  | c :: t =>
    let r := splitSlash t
    if c = '/' then [] :: r else (c :: r.headD []) :: r.tail

/-! ## The model of `urllib.parse` (CPython 3.11) -/

/-- CPython: `url.lstrip(_WHATWG_C0_CONTROL_OR_SPACE)`. -/
def lstripC0 (u : Str) : Str := u.dropWhile (fun c => decide (c.toNat ≤ 32))

/-- CPython: removal of the unsafe bytes tab, CR and LF anywhere in the URL. -/
def removeUnsafe (u : Str) : Str :=
  u.filter (fun c => decide (c ≠ '\t' ∧ c ≠ '\x0d' ∧ c ≠ '\n'))

/-- Split a string at its first colon: `some (before, after)`, or `none`
when no colon occurs (CPython `url.find(':')`). -/
def schemeSplit : Str → Option (Str × Str)
  | [] => none
  | c :: t =>
    if c = ':' then some ([], t)
    else
      match schemeSplit t with
      | some q => some (c :: q.1, q.2)
      | none => none

/-- CPython scheme extraction: the prefix before the first colon becomes the
(lowercased) scheme when it is nonempty, starts with an ASCII letter and
consists of scheme characters; otherwise the scheme is empty. -/
def splitScheme (u : Str) : Str × Str :=
  match schemeSplit u with
  | some q =>
    if q.1 ≠ [] ∧ asciiAlpha (u.headD ' ') ∧ q.1.all isSchemeChar then
      (q.1.map lowerChar, q.2)
    else ([], u)
  | none => ([], u)

/-- The netloc of a URL ends at the first slash, question mark or hash. -/
def notDelim (c : Char) : Bool := decide (c ≠ '/' ∧ c ≠ '?' ∧ c ≠ '#')

/-- Result of `urlparse`: the six named components. -/
structure UrlParts where
  scheme : Str
  netloc : Str
  path : Str
  params : Str
  query : Str
  fragment : Str
deriving DecidableEq

/-- CPython `url.split('#', 1)` guarded by `'#' in url`. -/
def cutFragment (u : Str) : Str × Str :=
  if '#' ∈ u then splitFirst '#' u else (u, [])

/-- CPython `url.split('?', 1)` guarded by `'?' in url`. -/
def cutQuery (u : Str) : Str × Str :=
  if '?' ∈ u then splitFirst '?' u else (u, [])

/-- CPython `urlsplit` (with `allow_fragments=True`); raises ValueError on a
netloc with unbalanced square brackets. -/
def urlsplit (u0 : Str) : Except String UrlParts :=
  let u := removeUnsafe (lstripC0 u0)
  let sr := splitScheme u
  match sr.2 with
  | '/' :: '/' :: rest =>
    let netloc := rest.takeWhile notDelim
    let r2 := rest.dropWhile notDelim
    if ('[' ∈ netloc ∧ ']' ∉ netloc) ∨ (']' ∈ netloc ∧ '[' ∉ netloc) then
      .error "Invalid IPv6 URL"
    else
      let fq := cutFragment r2
      let pq := cutQuery fq.1
      .ok ⟨sr.1, netloc, pq.1, [], pq.2, fq.2⟩
  | r1 =>
    let fq := cutFragment r1
    let pq := cutQuery fq.1
    .ok ⟨sr.1, [], pq.1, [], pq.2, fq.2⟩

/-- The CPython `uses_params` scheme list (3.11). -/
def usesParams : List Str :=
  ["", "ftp", "hdl", "prospero", "http", "imap", "https", "shttp", "rtsp",
   "rtsps", "rtspu", "sip", "sips", "mms", "sftp", "tel"].map String.data

/-- Index of the last slash in `p` (CPython `url.rfind('/')`); only used
when a slash is present. -/
def lastSlashIdx (p : Str) : Nat :=
  match p.reverse.findIdx? (fun c => decide (c = '/')) with
  | some r => p.length - 1 - r
  | none => 0

/-- CPython `_splitparams`. -/
def splitParamsFn (p : Str) : Str × Str :=
  if '/' ∈ p then
    let j := lastSlashIdx p
    match (p.drop j).findIdx? (fun c => decide (c = ';')) with
    | some k => (p.take (j + k), p.drop (j + k + 1))
    | none => (p, [])
  else
    match p.findIdx? (fun c => decide (c = ';')) with
    | some k => (p.take k, p.drop (k + 1))
    | none => (p, [])

/-- CPython `urlparse`: `urlsplit` plus params splitting. -/
def urlparse (u : Str) : Except String UrlParts :=
  (urlsplit u).map fun s =>
    if s.scheme ∈ usesParams ∧ ';' ∈ s.path then
      let pr := splitParamsFn s.path
      { s with path := pr.1, params := pr.2 }
    else s

/-! ## WordPressCrawler.normalize_url -/

/-- `WordPressCrawler.normalize_url`: rebuild `scheme://netloc + path` (the
fragment, query and params are dropped) and strip trailing slashes unless
the result is exactly the root form `scheme://netloc/`.  A `ValueError`
raised by `urlparse` propagates (the Python method does not catch it). -/
def normalize_url (url : Str) : Except String Str :=
  (urlparse url).map fun p =>
    let normalized := p.scheme ++ (':' :: '/' :: '/' :: []) ++ p.netloc ++ p.path
    let root := p.scheme ++ (':' :: '/' :: '/' :: []) ++ p.netloc ++ ['/']
    if normalized ≠ root ∧ lastIsSlash normalized then rstripSlash normalized
    else normalized

/-! ## WordPressCrawler.is_valid_url -/

/-- The extension skip list of `is_valid_url`. -/
def skip_extensions : List Str :=
  [".jpg", ".jpeg", ".png", ".gif", ".pdf", ".zip", ".css", ".js", ".ico",
   ".svg", ".webp", ".woff", ".woff2", ".ttf", ".eot"].map String.data

/-- The path skip list of `is_valid_url`. -/
def skip_paths : List Str :=
  ["/wp-admin", "/wp-login", "/wp-includes", "/wp-content/uploads", "/feed",
   "/xmlrpc.php", "/wp-json"].map String.data

/-- The noise query-parameter skip list of `is_valid_url`. -/
def skip_params : List Str :=
  ["replytocom", "share=", "like_comment", "print="].map String.data

/-- `WordPressCrawler.is_valid_url` for a crawler whose `self.domain` is
`domain`.  A `ValueError` from `urlparse` propagates. -/
def is_valid_url (domain : Str) (url : Str) : Except String Bool :=
  (urlparse url).map fun p =>
    if p.netloc ≠ domain then false
    else
      let pl := p.path.map lowerChar
      if skip_extensions.any (fun e => e.isSuffixOf pl) then false
      else if skip_paths.any (fun s => s.isPrefixOf pl) then false
      else if p.query ≠ [] ∧ skip_params.any (fun q => hasSub q p.query) then
        false
      else true

/-! ## WordPressCrawler.detect_page_type

The page markup reaches the classifier only through the space-joined body
class attribute string (`body_class_str` in the source); the model takes
that string directly, quantifying over all markups. -/

/-- The ordered first-match-wins cascade of `detect_page_type` over the
lowercased path and the body class string. -/
def detectCascade (path : Str) (body_class_str : Str) : Str :=
  if (["/property/", "/listing/", "/villa/", "/house/", "/condo/",
         "/apartment/"].map String.data).any (fun x => hasSub x path) then
      "property".data
    else if hasSub "single-property".data body_class_str ∨
        hasSub "single-listing".data body_class_str then "property".data
    else if hasSub "/blog/".data path ∨ hasSub "/news/".data path ∨
        hasSub "/article/".data path then "blog".data
    else if hasSub "single-post".data body_class_str then "blog".data
    else if hasSub "/category/".data path ∨ hasSub "/tag/".data path then
      "archive".data
    else if hasSub "archive".data body_class_str ∨
        hasSub "category".data body_class_str then "archive".data
    else if hasSub "/agent/".data path ∨ hasSub "/agents/".data path then
      "agent".data
    else if path = "/".data ∨ path = [] then "homepage".data
    else if (["/about", "/over-ons", "/team"].map String.data).any
        (fun x => hasSub x path) then "about".data
    else if (["/contact", "/contactus"].map String.data).any
        (fun x => hasSub x path) then "contact".data
    else if (["/privacy", "/gdpr"].map String.data).any
        (fun x => hasSub x path) then "privacy".data
    else if (["/terms", "/voorwaarden", "/conditions"].map String.data).any
        (fun x => hasSub x path) then "terms".data
    else if (["/service", "/dienst"].map String.data).any
        (fun x => hasSub x path) then "service".data
    else if (["/rental", "/verhuur", "/rent"].map String.data).any
        (fun x => hasSub x path) then "rental".data
    else if (["/location", "/area", "/region"].map String.data).any
        (fun x => hasSub x path) then "location".data
    else if (["/faq", "/veelgestelde-vragen"].map String.data).any
        (fun x => hasSub x path) then "faq".data
    else if hasSub "page".data body_class_str then "page".data
    else "unknown".data

/-- `WordPressCrawler.detect_page_type`: lowercase the URL path, then run
the cascade. -/
def detect_page_type (url : Str) (body_class_str : Str) : Except String Str :=
  (urlparse url).map fun p => detectCascade (p.path.map lowerChar) body_class_str

/-! ## WordPressCrawler.suggest_redirect -/

/-- The fields of `PageInfo` that `suggest_redirect` reads (the metadata
fields title, h1, meta description and canonical are never consulted by the
redirect mapper and are omitted). -/
structure PageInfo where
  url : Str
  page_type : Str
deriving DecidableEq

/-- The fixed `redirect_rules` table of `suggest_redirect`. -/
def redirect_rules : List (Str × Str) :=
  [("homepage", "/"), ("about", "/about"), ("contact", "/contact"),
   ("privacy", "/privacy-policy"), ("terms", "/terms-and-conditions"),
   ("rental", "/rental-services"), ("faq", "/faq")].map
    (fun q => (q.1.data, q.2.data))

/-- Dictionary lookup in `redirect_rules`. -/
def lookupRule (t : Str) : Option Str :=
  (redirect_rules.find? (fun r => r.1 == t)).map (fun r => r.2)

/-- Python `path.rstrip('/').split('/')[-1]`, the slug extraction of
`suggest_redirect`. -/
def lastSegment (p : Str) : Str := (splitSlash (rstripSlash p)).getLastD []

/-- `re.sub(r'^/(blog|news|article)/', '/blogs/', path)`: the pattern is
anchored, so at most the leading occurrence is replaced. -/
def rewriteBlogPre (p : Str) : Str :=
  if "/blog/".data.isPrefixOf p then "/blogs/".data ++ p.drop 6
  else if "/news/".data.isPrefixOf p then "/blogs/".data ++ p.drop 6
  else if "/article/".data.isPrefixOf p then "/blogs/".data ++ p.drop 9
  else p

/-- `re.sub(r'^/(property|listing|properties)/', '/properties/phuket/other/', p)`. -/
def rewritePropPre (p : Str) : Str :=
  if "/property/".data.isPrefixOf p then
    "/properties/phuket/other/".data ++ p.drop 10
  else if "/listing/".data.isPrefixOf p then
    "/properties/phuket/other/".data ++ p.drop 9
  else if "/properties/".data.isPrefixOf p then
    "/properties/phuket/other/".data ++ p.drop 12
  else p

/-- The page-type dispatch of `suggest_redirect` over the (original-case)
URL path. -/
def suggestFromPath (page_type : Str) (path : Str) : Str :=
  match lookupRule page_type with
    | some r => r
    | none =>
      if page_type = "property".data then
        "/listings/".data ++ lastSegment path
      else if page_type = "blog".data then
        "/blogs/".data ++ lastSegment path
      else if page_type = "agent".data then "/about".data
      else if page_type = "archive".data then "/properties".data
      else if page_type = "location".data then
        "/locations/".data ++ lastSegment path
      else if page_type = "service".data then
        "/services/".data ++ lastSegment path
      else
        let clean1 := rewriteBlogPre path
        let clean2 := rewritePropPre clean1
        if clean2 ≠ path then clean2 else "/properties".data

/-- `WordPressCrawler.suggest_redirect`.  A `ValueError` from `urlparse`
propagates (not reachable for pages built by the crawler, whose URLs were
parsed before). -/
def suggest_redirect (page : PageInfo) : Except String Str :=
  (urlparse page.url).map fun pr => suggestFromPath page.page_type pr.path

/-- The fifteen page types of the classifier. -/
def pageTypes : List Str :=
  ["homepage", "property", "blog", "archive", "agent", "about", "contact",
   "privacy", "terms", "service", "rental", "location", "faq", "page",
   "unknown"].map String.data

/-! ## WordPressCrawler.try_fetch_sitemap

The network is an oracle mapping a URL to either a transport exception
(`requests.RequestException`) or a response with a status code and the
parsed document.  A sitemap document is abstracted to the text contents of
the `<loc>` children of its `<sitemap>` elements and of its `<url>`
elements (elements without a `<loc>` child are skipped by the source and
are invisible to the model).

`is_valid_url` is total here via `Except.toOption`: an input making
`urlparse` raise would abort the whole Python run, and the theorems about
this model describe the non-aborting runs. -/

/-- A fetched sitemap document. -/
structure SitemapDoc where
  sitemapLocs : List Str
  urlLocs : List Str
deriving DecidableEq

/-- Outcome of one `session.get` against the sitemap oracle. -/
inductive NetResult where
  | resp (status : Nat) (doc : SitemapDoc)
  | exn
deriving DecidableEq

/-- `is_valid_url` as the Bool the sitemap code branches on. -/
def validFlag (domain : Str) (u : Str) : Bool :=
  ((is_valid_url domain u).toOption).getD false

/-- `WordPressCrawler._parse_sitemap`: fetch one child sitemap and collect
its valid direct URL entries; any transport error yields the empty list. -/
def parse_sitemap (net : Str → NetResult) (domain : Str) (u : Str) : List Str :=
  match net u with
  | .exn => []
  | .resp st doc => if st = 200 then doc.urlLocs.filter (validFlag domain) else []

/-- The fixed ordered probe list of `try_fetch_sitemap`. -/
def sitemap_locations : List Str :=
  ["/sitemap.xml", "/sitemap_index.xml", "/wp-sitemap.xml", "/sitemap/",
   "/sitemap.xml.gz"].map String.data

/-- The body of the `try_fetch_sitemap` loop, threading the `all_urls`
accumulator exactly as the source does. -/
def tryFetchSitemapAux (net : Str → NetResult) (base domain : Str) :
    List Str → List Str → List Str
  | [], _acc => []
  | loc :: rest, acc =>
    match net (base ++ loc) with
    | .exn => tryFetchSitemapAux net base domain rest acc
    | .resp st doc =>
      if st = 200 then
        let acc2 := (acc ++ (doc.sitemapLocs.map (parse_sitemap net domain)).flatten)
          ++ doc.urlLocs.filter (validFlag domain)
        if acc2 = [] then tryFetchSitemapAux net base domain rest acc2
        else acc2
      else tryFetchSitemapAux net base domain rest acc

/-- `WordPressCrawler.try_fetch_sitemap`. -/
def try_fetch_sitemap (net : Str → NetResult) (base domain : Str) : List Str :=
  tryFetchSitemapAux net base domain sitemap_locations []

/-- Modelled from the spec: the validated URL set a single sitemap location
yields (child-sitemap URL entries flattened, then direct URL entries). -/
def specLocationYield (net : Str → NetResult) (base domain : Str)
    (loc : Str) : List Str :=
  match net (base ++ loc) with
  | .exn => []
  | .resp st doc =>
    if st = 200 then
      (doc.sitemapLocs.map (parse_sitemap net domain)).flatten
        ++ doc.urlLocs.filter (validFlag domain)
    else []

/-- Modelled from the spec: the first non-empty entry of a list of URL
sets, or the empty set. -/
def specFirstNonEmpty : List (List Str) → List Str
  | [] => []
  | l :: rest => if l = [] then specFirstNonEmpty rest else l

/-! ## WordPressCrawler.crawl

The crawl loop.  The page fetcher is an oracle mapping a URL to either a
transport exception with a message or a response carrying a status code and
— abstacting `extract_links` — the already-normalized, validated
same-domain links of the page body (consulted only on status 200 when not
in sitemap mode).  `PageInfo` metadata extraction is orthogonal to the loop
(modelled separately above); the `pages` result keeps the URLs of the
records in insertion order.  Python pops an arbitrary element from the
`to_visit` set: the model takes a choice function `choose` and every
theorem quantifies over it. -/

/-- Outcome of `session.get` for one page fetch. -/
inductive FetchOutcome where
  | resp (status : Nat) (links : List Str)
  | exn (msg : Str)

/-- One entry of `self.errors`. -/
structure CrawlError where
  url : Str
  status_code : Nat
  error : Str
deriving DecidableEq

/-- The error message `'HTTP {status_code}'`. -/
def httpErrMsg (status : Nat) : Str := "HTTP ".data ++ Nat.toDigits 10 status

/-- The mutable crawl state: `visited`, `to_visit` (as duplicate-free
lists), the accumulated pages and errors, and `page_count`. -/
structure CrawlState where
  visited : List Str
  toVisit : List Str
  pages : List Str
  errors : List CrawlError
  pageCount : Nat
deriving DecidableEq

/-- `self.to_visit.add(link)` guarded by `link not in self.visited`. -/
def enqueueLinks (visited : List Str) (toVisit : List Str)
    (links : List Str) : List Str :=
  links.foldl
    (fun tv l => if l ∈ visited ∨ l ∈ tv then tv else tv ++ [l]) toVisit

/-- The dequeued element (`url = self.to_visit.pop()`, popping the
element the choice function selects). -/
def dequeued (choose : List Str → Nat) (s : CrawlState) : Str :=
  s.toVisit.getD (choose s.toVisit % s.toVisit.length) []

/-- The frontier after `pop` removed the dequeued element. -/
def remaining (choose : List Str → Nat) (s : CrawlState) : List Str :=
  s.toVisit.eraseIdx (choose s.toVisit % s.toVisit.length)

/-- The body of one loop iteration, entered when the guard holds: pop a
URL; skip it when already visited; otherwise mark it visited and count it
before the fetch, then record a page (enqueuing extracted links only when
not in sitemap mode) or an error according to the fetch outcome. -/
def crawlBody (env : Str → FetchOutcome) (choose : List Str → Nat)
    (sitemapMode : Bool) (s : CrawlState) : CrawlState :=
  if dequeued choose s ∈ s.visited then { s with toVisit := remaining choose s }
  else
    match env (dequeued choose s) with
    | .resp status links =>
      if status = 200 then
        if sitemapMode then
          ⟨s.visited ++ [dequeued choose s], remaining choose s,
           s.pages ++ [dequeued choose s], s.errors, s.pageCount + 1⟩
        else
          ⟨s.visited ++ [dequeued choose s],
           enqueueLinks (s.visited ++ [dequeued choose s])
             (remaining choose s) links,
           s.pages ++ [dequeued choose s], s.errors, s.pageCount + 1⟩
      else
        ⟨s.visited ++ [dequeued choose s], remaining choose s, s.pages,
         s.errors ++ [⟨dequeued choose s, status, httpErrMsg status⟩],
         s.pageCount + 1⟩
    | .exn msg =>
      ⟨s.visited ++ [dequeued choose s], remaining choose s, s.pages,
       s.errors ++ [⟨dequeued choose s, 0, msg⟩], s.pageCount + 1⟩

/-- One iteration of the `while self.to_visit and page_count < self.max_pages`
loop; `none` when the loop guard fails. -/
def crawlStep (env : Str → FetchOutcome) (choose : List Str → Nat)
    (maxPages : Nat) (sitemapMode : Bool) (s : CrawlState) :
    Option CrawlState :=
  if s.toVisit ≠ [] ∧ s.pageCount < maxPages then
    some (crawlBody env choose sitemapMode s)
  else none

/-- The crawl loop `while self.to_visit and page_count < self.max_pages`. -/
def crawlLoop (env : Str → FetchOutcome) (choose : List Str → Nat)
    (mp : Nat) (sm : Bool) (s : CrawlState) : CrawlState :=
  match h : crawlStep env choose mp sm s with
  | none => s
  | some s' => crawlLoop env choose mp sm s'
termination_by (mp - s.pageCount, s.toVisit.length)
decreasing_by
  have hmeas : (s'.pageCount = s.pageCount ∧ s'.toVisit.length < s.toVisit.length) ∨
      (s.pageCount < mp ∧ s'.pageCount = s.pageCount + 1) := by
    unfold crawlStep at h
    split at h
    case isFalse => exact absurd h (by simp)
    case isTrue hg =>
      have hb := Option.some.inj h
      have hidx : choose s.toVisit % s.toVisit.length < s.toVisit.length :=
        Nat.mod_lt _ (List.length_pos.mpr hg.1)
      unfold crawlBody at hb
      split at hb
      · refine Or.inl ?_
        rw [← hb]
        exact ⟨rfl, by rw [remaining, List.length_eraseIdx_of_lt hidx]; omega⟩
      · split at hb
        · split at hb
          · split at hb
            · exact Or.inr ⟨hg.2, by rw [← hb]⟩
            · exact Or.inr ⟨hg.2, by rw [← hb]⟩
          · exact Or.inr ⟨hg.2, by rw [← hb]⟩
        · exact Or.inr ⟨hg.2, by rw [← hb]⟩
  rcases hmeas with ⟨h1, h2⟩ | ⟨h1, h2⟩
  · rw [h1]
    exact Prod.Lex.right _ h2
  · apply Prod.Lex.left
    omega

/-- `n` iterations of the loop body (stops early if the guard fails). -/
def stepN (env : Str → FetchOutcome) (choose : List Str → Nat) (mp : Nat)
    (sm : Bool) : Nat → CrawlState → CrawlState
  | 0, s => s
  | n + 1, s =>
    match crawlStep env choose mp sm s with
    | none => s
    | some s' => stepN env choose mp sm n s'

/-! ### Seeding and the full crawl -/

/-- The crawl state before the loop starts. -/
def initState (toVisit0 : List Str) : CrawlState := ⟨[], toVisit0, [], [], 0⟩

/-- Seeding `to_visit` from sitemap URLs: each seed is normalized and added
to the set.  (A seed making `normalize_url` raise would abort the whole
Python run before the loop; such seeds are skipped here, and the theorems
about sitemap mode hold for the runs that do start.) -/
def seedFromSitemap (seeds : List Str) : List Str :=
  seeds.foldl
    (fun tv u =>
      match normalize_url u with
      | .ok v => if v ∈ tv then tv else tv ++ [v]
      | .error _ => tv) []

/-- The initial frontier: sitemap seeds when any were found, otherwise just
the base URL. -/
def crawlInit (seeds : List Str) (base : Str) : CrawlState :=
  if seeds = [] then initState [base] else initState (seedFromSitemap seeds)

/-- `WordPressCrawler.crawl`, given the sitemap result `seeds` and the page
fetch oracle `env`: seed the frontier, then run the loop; link extraction
happens only when `seeds` is empty (manual mode). -/
def crawl (env : Str → FetchOutcome) (choose : List Str → Nat) (mp : Nat)
    (seeds : List Str) (base : Str) : CrawlState :=
  crawlLoop env choose mp (decide (seeds ≠ [])) (crawlInit seeds base)

/-- The frontier well-formedness invariant of the spec: `visited` and
`to_visit` are duplicate-free and disjoint. -/
abbrev FrontierInv (s : CrawlState) : Prop :=
  s.visited.Nodup ∧ s.toVisit.Nodup ∧ ∀ u ∈ s.visited, u ∉ s.toVisit

/-! ## Helper lemmas about the crawl loop -/

/-- Case analysis of one successful loop iteration. -/
theorem crawlStep_some_spec (env : Str → FetchOutcome)
    (choose : List Str → Nat) (mp : Nat) (sm : Bool) (s s' : CrawlState)
    (h : crawlStep env choose mp sm s = some s') :
    s.toVisit ≠ [] ∧ s.pageCount < mp ∧
    (let url := dequeued choose s
     let rest := remaining choose s
     (url ∈ s.visited ∧ s' = { s with toVisit := rest }) ∨
     (url ∉ s.visited ∧
       ((∃ links, env url = .resp 200 links ∧
          ((sm = true ∧
             s' = ⟨s.visited ++ [url], rest, s.pages ++ [url], s.errors,
                   s.pageCount + 1⟩) ∨
           (sm = false ∧
             s' = ⟨s.visited ++ [url],
                   enqueueLinks (s.visited ++ [url]) rest links,
                   s.pages ++ [url], s.errors, s.pageCount + 1⟩))) ∨
        (∃ st links, env url = .resp st links ∧ st ≠ 200 ∧
          s' = ⟨s.visited ++ [url], rest, s.pages,
                s.errors ++ [⟨url, st, httpErrMsg st⟩], s.pageCount + 1⟩) ∨
        (∃ m, env url = .exn m ∧
          s' = ⟨s.visited ++ [url], rest, s.pages,
                s.errors ++ [⟨url, 0, m⟩], s.pageCount + 1⟩)))) := by
  unfold crawlStep at h
  split at h
  case isFalse => exact absurd h (by simp)
  case isTrue hg =>
    refine ⟨hg.1, hg.2, ?_⟩
    have hb : crawlBody env choose sm s = s' := Option.some.inj h
    unfold crawlBody at hb
    split at hb
    case isTrue hv =>
      exact Or.inl ⟨hv, hb.symm⟩
    case isFalse hv =>
      refine Or.inr ⟨hv, ?_⟩
      split at hb
      · rename_i status links henv
        by_cases h200 : status = 200
        · subst h200
          rw [if_pos rfl] at hb
          by_cases hsm : sm = true
          · rw [if_pos hsm] at hb
            exact Or.inl ⟨links, henv, Or.inl ⟨hsm, hb.symm⟩⟩
          · rw [if_neg hsm] at hb
            exact Or.inl ⟨links, henv, Or.inr ⟨by simpa using hsm, hb.symm⟩⟩
        · rw [if_neg h200] at hb
          exact Or.inr (Or.inl ⟨status, links, henv, h200, hb.symm⟩)
      · rename_i m henv
        exact Or.inr (Or.inr ⟨m, henv, hb.symm⟩)

/-- The loop guard fails exactly when the frontier is empty or the budget
is exhausted. -/
theorem crawlStep_eq_none_iff (env : Str → FetchOutcome)
    (choose : List Str → Nat) (mp : Nat) (sm : Bool) (s : CrawlState) :
    crawlStep env choose mp sm s = none ↔
      (s.toVisit = [] ∨ mp ≤ s.pageCount) := by
  constructor
  · intro h
    by_contra hc
    push_neg at hc
    have hg : s.toVisit ≠ [] ∧ s.pageCount < mp := ⟨hc.1, hc.2⟩
    unfold crawlStep at h
    rw [if_pos hg] at h
    exact Option.noConfusion h
  · intro h
    unfold crawlStep
    rw [if_neg]
    intro hg
    rcases h with h | h
    · exact hg.1 h
    · omega

/-- Each iteration either keeps the page counter and strictly shrinks the
frontier, or increments the counter while it is still under the budget. -/
theorem crawlStep_measure (env : Str → FetchOutcome)
    (choose : List Str → Nat) (mp : Nat) (sm : Bool) (s s' : CrawlState)
    (h : crawlStep env choose mp sm s = some s') :
    (s'.pageCount = s.pageCount ∧ s'.toVisit.length < s.toVisit.length) ∨
      (s.pageCount < mp ∧ s'.pageCount = s.pageCount + 1) := by
  obtain ⟨hne, hlt, hc⟩ := crawlStep_some_spec env choose mp sm s s' h
  have hidx : choose s.toVisit % s.toVisit.length < s.toVisit.length :=
    Nat.mod_lt _ (List.length_pos.mpr hne)
  have herase : (remaining choose s).length < s.toVisit.length := by
    rw [remaining, List.length_eraseIdx_of_lt hidx]
    omega
  rcases hc with ⟨_, rfl⟩ | ⟨_, hcase⟩
  · exact Or.inl ⟨rfl, herase⟩
  · rcases hcase with ⟨links, _, ⟨_, rfl⟩ | ⟨_, rfl⟩⟩ | ⟨st, links, _, _, rfl⟩ | ⟨m, _, rfl⟩ <;>
      exact Or.inr ⟨hlt, rfl⟩


/-- Once the guard fails after `n` iterations, the loop result is the
`n`-iterate. -/
theorem crawlLoop_eq_stepN (env : Str → FetchOutcome)
    (choose : List Str → Nat) (mp : Nat) (sm : Bool) (n : Nat)
    (s : CrawlState)
    (h : crawlStep env choose mp sm (stepN env choose mp sm n s) = none) :
    crawlLoop env choose mp sm s = stepN env choose mp sm n s := by
  induction n generalizing s with
  | zero =>
    rw [stepN] at h ⊢
    rw [crawlLoop.eq_def, h]
  | succ n ih =>
    cases hs : crawlStep env choose mp sm s with
    | none =>
      rw [stepN, hs] at h ⊢
      rw [crawlLoop.eq_def, hs]
    | some s' =>
      rw [stepN, hs] at h ⊢
      rw [crawlLoop.eq_def, hs]
      exact ih s' h

/-- The loop always reaches a state where the guard fails. -/
theorem crawl_terminates (env : Str → FetchOutcome)
    (choose : List Str → Nat) (mp : Nat) (sm : Bool) :
    ∀ a b s, mp - s.pageCount ≤ a → s.toVisit.length ≤ b →
      ∃ n, crawlStep env choose mp sm (stepN env choose mp sm n s) = none := by
  intro a
  induction a with
  | zero =>
    intro b
    induction b with
    | zero =>
      intro s ha hb
      refine ⟨0, ?_⟩
      rw [stepN, crawlStep_eq_none_iff]
      exact Or.inl (List.length_eq_zero.mp (Nat.le_zero.mp hb))
    | succ b ihb =>
      intro s ha hb
      cases hs : crawlStep env choose mp sm s with
      | none => exact ⟨0, by rw [stepN]; exact hs⟩
      | some s' =>
        rcases crawlStep_measure env choose mp sm s s' hs with ⟨h1, h2⟩ | ⟨h1, h2⟩
        · obtain ⟨n, hn⟩ := ihb s' (by omega) (by omega)
          exact ⟨n + 1, by rw [stepN, hs]; exact hn⟩
        · omega
  | succ a iha =>
    intro b
    induction b with
    | zero =>
      intro s ha hb
      refine ⟨0, ?_⟩
      rw [stepN, crawlStep_eq_none_iff]
      exact Or.inl (List.length_eq_zero.mp (Nat.le_zero.mp hb))
    | succ b ihb =>
      intro s ha hb
      cases hs : crawlStep env choose mp sm s with
      | none => exact ⟨0, by rw [stepN]; exact hs⟩
      | some s' =>
        rcases crawlStep_measure env choose mp sm s s' hs with ⟨h1, h2⟩ | ⟨h1, h2⟩
        · obtain ⟨n, hn⟩ := ihb s' (by omega) (by omega)
          exact ⟨n + 1, by rw [stepN, hs]; exact hn⟩
        · obtain ⟨n, hn⟩ := iha s'.toVisit.length s' (by omega) (by omega)
          exact ⟨n + 1, by rw [stepN, hs]; exact hn⟩

/-- The loop result is an iterate at which the guard fails. -/
theorem crawlLoop_reached (env : Str → FetchOutcome)
    (choose : List Str → Nat) (mp : Nat) (sm : Bool) (s : CrawlState) :
    ∃ n, crawlLoop env choose mp sm s = stepN env choose mp sm n s ∧
      crawlStep env choose mp sm (stepN env choose mp sm n s) = none := by
  obtain ⟨n, hn⟩ := crawl_terminates env choose mp sm (mp - s.pageCount)
    s.toVisit.length s le_rfl le_rfl
  exact ⟨n, crawlLoop_eq_stepN env choose mp sm n s hn, hn⟩

/-- Step-indexed preservation of an invariant. -/
theorem stepN_invariant (env : Str → FetchOutcome)
    (choose : List Str → Nat) (mp : Nat) (sm : Bool)
    (P : CrawlState → Prop)
    (hstep : ∀ s s', P s → crawlStep env choose mp sm s = some s' → P s') :
    ∀ n s, P s → P (stepN env choose mp sm n s) := by
  intro n
  induction n with
  | zero => intro s hs; rw [stepN]; exact hs
  | succ n ih =>
    intro s hs
    rw [stepN]
    cases hcs : crawlStep env choose mp sm s with
    | none => exact hs
    | some s' => exact ih s' (hstep s s' hs hcs)


/-! ## Frontier lemmas -/

theorem dequeued_mem (choose : List Str → Nat) (s : CrawlState)
    (h : s.toVisit ≠ []) : dequeued choose s ∈ s.toVisit := by
  have hidx : choose s.toVisit % s.toVisit.length < s.toVisit.length :=
    Nat.mod_lt _ (List.length_pos.mpr h)
  rw [dequeued, List.getD_eq_getElem _ _ hidx]
  exact List.getElem_mem hidx

theorem remaining_subset (choose : List Str → Nat) (s : CrawlState) :
    remaining choose s ⊆ s.toVisit :=
  (List.eraseIdx_sublist _ _).subset

theorem remaining_nodup (choose : List Str → Nat) (s : CrawlState)
    (h : s.toVisit.Nodup) : (remaining choose s).Nodup :=
  (List.eraseIdx_sublist _ _).nodup h

theorem dequeued_not_mem_remaining (choose : List Str → Nat)
    (s : CrawlState) (hnd : s.toVisit.Nodup) (hne : s.toVisit ≠ []) :
    dequeued choose s ∉ remaining choose s := by
  have hidx : choose s.toVisit % s.toVisit.length < s.toVisit.length :=
    Nat.mod_lt _ (List.length_pos.mpr hne)
  rw [dequeued, remaining, List.getD_eq_getElem _ _ hidx,
    List.eraseIdx_eq_take_drop_succ]
  have hdecomp :
      s.toVisit =
        s.toVisit.take (choose s.toVisit % s.toVisit.length) ++
          s.toVisit[choose s.toVisit % s.toVisit.length] ::
            s.toVisit.drop (choose s.toVisit % s.toVisit.length + 1) := by
    conv_lhs => rw [← List.take_append_drop (choose s.toVisit % s.toVisit.length) s.toVisit]
    rw [List.drop_eq_getElem_cons hidx]
  rw [hdecomp] at hnd
  rw [List.nodup_append] at hnd
  intro hmem
  rcases List.mem_append.mp hmem with hmem | hmem
  · exact hnd.2.2 hmem (List.mem_cons_self _ _)
  · exact (List.nodup_cons.mp hnd.2.1).1 hmem

/-! ## enqueueLinks lemmas -/

theorem mem_enqueueLinks (vis : List Str) (links : List Str) :
    ∀ tv u, u ∈ enqueueLinks vis tv links → u ∈ tv ∨ u ∈ links := by
  induction links with
  | nil => intro tv u h; exact Or.inl h
  | cons l ls ih =>
    intro tv u h
    rw [enqueueLinks, List.foldl_cons] at h
    rcases ih _ u h with h1 | h1
    · by_cases hc : l ∈ vis ∨ l ∈ tv
      · rw [if_pos hc] at h1
        exact Or.inl h1
      · rw [if_neg hc] at h1
        rcases List.mem_append.mp h1 with h2 | h2
        · exact Or.inl h2
        · rw [List.mem_singleton] at h2
          exact Or.inr (h2 ▸ List.mem_cons_self l ls)
    · exact Or.inr (List.mem_cons_of_mem _ h1)

theorem enqueueLinks_nodup (vis : List Str) (links : List Str) :
    ∀ tv, tv.Nodup → (enqueueLinks vis tv links).Nodup := by
  induction links with
  | nil => intro tv h; exact h
  | cons l ls ih =>
    intro tv h
    rw [enqueueLinks, List.foldl_cons]
    apply ih
    by_cases hc : l ∈ vis ∨ l ∈ tv
    · rw [if_pos hc]; exact h
    · rw [if_neg hc]
      rw [List.nodup_append]
      push_neg at hc
      exact ⟨h, List.nodup_singleton l, by
        intro a ha hb
        rw [List.mem_singleton] at hb
        exact hc.2 (hb ▸ ha)⟩

theorem not_mem_enqueueLinks (vis : List Str) (links : List Str)
    (u : Str) (hu : u ∈ vis) :
    ∀ tv, u ∉ tv → u ∉ enqueueLinks vis tv links := by
  induction links with
  | nil => intro tv h; exact h
  | cons l ls ih =>
    intro tv h
    rw [enqueueLinks, List.foldl_cons]
    apply ih
    by_cases hc : l ∈ vis ∨ l ∈ tv
    · rw [if_pos hc]; exact h
    · rw [if_neg hc]
      intro hmem
      rcases List.mem_append.mp hmem with h2 | h2
      · exact h h2
      · rw [List.mem_singleton] at h2
        exact hc (Or.inl (h2 ▸ hu))

/-! ## Frontier invariant preservation -/

theorem seedFromSitemapAux_nodup (seeds : List Str) :
    ∀ tv : List Str, tv.Nodup →
      (seeds.foldl
        (fun tv u =>
          match normalize_url u with
          | .ok v => if v ∈ tv then tv else tv ++ [v]
          | .error _ => tv) tv).Nodup := by
  induction seeds with
  | nil => intro tv h; exact h
  | cons u us ih =>
    intro tv h
    rw [List.foldl_cons]
    apply ih
    cases hn : normalize_url u with
    | error e => exact h
    | ok v =>
      show (if v ∈ tv then tv else tv ++ [v]).Nodup
      by_cases hv : v ∈ tv
      · rw [if_pos hv]; exact h
      · rw [if_neg hv]
        rw [List.nodup_append]
        exact ⟨h, List.nodup_singleton v, by
          intro a ha hb
          rw [List.mem_singleton] at hb
          exact hv (hb ▸ ha)⟩

theorem seedFromSitemap_nodup (seeds : List Str) :
    (seedFromSitemap seeds).Nodup :=
  seedFromSitemapAux_nodup seeds [] List.nodup_nil

theorem crawlInit_frontierInv (seeds : List Str) (base : Str) :
    FrontierInv (crawlInit seeds base) := by
  rw [crawlInit]
  by_cases h : seeds = []
  · rw [if_pos h]
    exact ⟨List.nodup_nil, List.nodup_singleton base, by simp [initState]⟩
  · rw [if_neg h]
    exact ⟨List.nodup_nil, seedFromSitemap_nodup seeds, by simp [initState]⟩

theorem frontier_step (env : Str → FetchOutcome) (choose : List Str → Nat)
    (mp : Nat) (sm : Bool) (s s' : CrawlState) (hinv : FrontierInv s)
    (h : crawlStep env choose mp sm s = some s') :
    FrontierInv s' ∧
      (s'.visited = s.visited ∨
        ∃ u, u ∈ s.toVisit ∧ u ∉ s.visited ∧
          s'.visited = s.visited ++ [u] ∧ u ∉ s'.toVisit) := by
  obtain ⟨hnd, hndtv, hdisj⟩ := hinv
  obtain ⟨hne, hlt, hc⟩ := crawlStep_some_spec env choose mp sm s s' h
  have hdmem : dequeued choose s ∈ s.toVisit := dequeued_mem choose s hne
  have hdrem : dequeued choose s ∉ remaining choose s :=
    dequeued_not_mem_remaining choose s hndtv hne
  have hremnd : (remaining choose s).Nodup := remaining_nodup choose s hndtv
  have hremsub : remaining choose s ⊆ s.toVisit := remaining_subset choose s
  have hndapp : ∀ u, u ∉ s.visited → (s.visited ++ [u]).Nodup := by
    intro u hu
    rw [List.nodup_append]
    exact ⟨hnd, List.nodup_singleton u, by
      intro a ha hb
      rw [List.mem_singleton] at hb
      exact hu (hb ▸ ha)⟩
  have hdisjrem : ∀ u hu, u ∈ s.visited ++ [hu] → hu ∉ s.visited →
      u ∉ remaining choose s ∨ u = hu := by
    intro u hu hmem _
    rcases List.mem_append.mp hmem with h1 | h1
    · exact Or.inl fun hr => hdisj u h1 (hremsub hr)
    · rw [List.mem_singleton] at h1
      exact Or.inr h1
  rcases hc with ⟨hv, rfl⟩ | ⟨hv, hcase⟩
  · exact ⟨⟨hnd, hremnd, fun u hu hr => hdisj u hu (hremsub hr)⟩, Or.inl rfl⟩
  · have hgrow : ∀ tv' : List Str,
        (∀ u, u ∈ s.visited ++ [dequeued choose s] → u ∉ tv') →
        tv'.Nodup →
        FrontierInv ⟨s.visited ++ [dequeued choose s], tv', s.pages ++ [dequeued choose s], s.errors, s.pageCount + 1⟩ ∧
          True := by
      intro tv' hd hn
      exact ⟨⟨hndapp _ hv, hn, hd⟩, trivial⟩
    rcases hcase with ⟨links, henv, ⟨hsm, rfl⟩ | ⟨hsm, rfl⟩⟩ |
        ⟨st, links, henv, h200, rfl⟩ | ⟨m, henv, rfl⟩
    · refine ⟨⟨hndapp _ hv, hremnd, ?_⟩,
        Or.inr ⟨dequeued choose s, hdmem, hv, rfl, hdrem⟩⟩
      intro u hu
      rcases hdisjrem u (dequeued choose s) hu hv with h1 | h1
      · exact h1
      · exact h1 ▸ hdrem
    · have hdisj' : ∀ u, u ∈ s.visited ++ [dequeued choose s] →
          u ∉ enqueueLinks (s.visited ++ [dequeued choose s])
            (remaining choose s) links := by
        intro u hu
        apply not_mem_enqueueLinks _ _ _ hu
        rcases hdisjrem u (dequeued choose s) hu hv with h1 | h1
        · exact h1
        · exact h1 ▸ hdrem
      refine ⟨⟨hndapp _ hv, enqueueLinks_nodup _ _ _ hremnd, hdisj'⟩,
        Or.inr ⟨dequeued choose s, hdmem, hv, rfl, ?_⟩⟩
      exact hdisj' (dequeued choose s) (by simp)
    · refine ⟨⟨hndapp _ hv, hremnd, ?_⟩,
        Or.inr ⟨dequeued choose s, hdmem, hv, rfl, hdrem⟩⟩
      intro u hu
      rcases hdisjrem u (dequeued choose s) hu hv with h1 | h1
      · exact h1
      · exact h1 ▸ hdrem
    · refine ⟨⟨hndapp _ hv, hremnd, ?_⟩,
        Or.inr ⟨dequeued choose s, hdmem, hv, rfl, hdrem⟩⟩
      intro u hu
      rcases hdisjrem u (dequeued choose s) hu hv with h1 | h1
      · exact h1
      · exact h1 ▸ hdrem

/-! ## Claim C5: sitemap probing order -/

theorem tryFetchSitemapAux_spec (net : Str → NetResult) (base domain : Str) :
    ∀ locs : List Str,
      tryFetchSitemapAux net base domain locs [] =
        specFirstNonEmpty (locs.map (specLocationYield net base domain)) := by
  intro locs
  induction locs with
  | nil => rfl
  | cons loc rest ih =>
    rw [List.map_cons, tryFetchSitemapAux, specFirstNonEmpty]
    cases hnet : net (base ++ loc) with
    | exn =>
      rw [specLocationYield, hnet]
      dsimp only
      rw [if_pos rfl]
      exact ih
    | resp st doc =>
      rw [specLocationYield, hnet]
      dsimp only
      by_cases h200 : st = 200
      · rw [if_pos h200, if_pos h200]
        simp only [List.nil_append]
        by_cases hacc :
            (doc.sitemapLocs.map (parse_sitemap net domain)).flatten
              ++ doc.urlLocs.filter (validFlag domain) = []
        · rw [if_pos hacc, if_pos hacc, hacc]
          exact ih
        · rw [if_neg hacc, if_neg hacc]
      · rw [if_neg h200, if_neg h200, if_pos rfl]
        exact ih

/-- C5: the sitemap resolver probes exactly the five conventional locations
in their fixed order and returns the validated URL set collected at the
first location that yields a non-empty set; a per-location transport
failure (or non-200 status) just moves on to the next location, and the
result is empty (the first-non-empty of an all-empty list) only when all
five locations are exhausted without yielding URLs. -/
theorem c5_sitemap_probe_order (net : Str → NetResult) (base domain : Str) :
    try_fetch_sitemap net base domain =
      specFirstNonEmpty
        ((["/sitemap.xml", "/sitemap_index.xml", "/wp-sitemap.xml",
           "/sitemap/", "/sitemap.xml.gz"].map String.data).map
          (specLocationYield net base domain)) := by
  rw [try_fetch_sitemap, sitemap_locations]
  exact tryFetchSitemapAux_spec net base domain _

/-! ## Claim C1: frontier invariant -/

/-- C1: throughout every execution of the crawl loop, `visited` and
`to_visit` are disjoint (and duplicate-free).  The invariant holds in every
initial state and at every loop iterate, and every successful iteration
either leaves `visited` unchanged (the defensive already-visited skip,
which the invariant makes unreachable for fresh URLs) or moves exactly one
URL `u` from `to_visit` into `visited` — the move happens at the dequeue,
in every branch of the fetch outcome, hence before any fetch result is
used — so every URL in `visited` entered it by a dequeue, exactly once
(`visited` stays duplicate-free). -/
theorem c1_frontier_invariant :
    (∀ seeds base, FrontierInv (crawlInit seeds base)) ∧
    (∀ env choose mp sm s s', FrontierInv s →
        crawlStep env choose mp sm s = some s' →
        FrontierInv s' ∧
          (s'.visited = s.visited ∨
            ∃ u, u ∈ s.toVisit ∧ u ∉ s.visited ∧
              s'.visited = s.visited ++ [u] ∧ u ∉ s'.toVisit)) ∧
    (∀ env choose mp seeds base n,
        FrontierInv (stepN env choose mp (decide (seeds ≠ [])) n
          (crawlInit seeds base))) := by
  refine ⟨crawlInit_frontierInv,
    fun env choose mp sm s s' hinv h => frontier_step env choose mp sm s s' hinv h,
    ?_⟩
  intro env choose mp seeds base n
  exact stepN_invariant env choose mp (decide (seeds ≠ [])) FrontierInv
    (fun s s' hs hstep => (frontier_step _ _ _ _ s s' hs hstep).1) n _
    (crawlInit_frontierInv seeds base)

theorem c1_frontier_invariant_witness :
    FrontierInv (⟨[['a']], [], [['a']], [], 1⟩ : CrawlState) ∧
      ((⟨[['a']], [], [['a']], [], 1⟩ : CrawlState).visited =
          (⟨[], [['a']], [], [], 0⟩ : CrawlState).visited ∨
        ∃ u, u ∈ (⟨[], [['a']], [], [], 0⟩ : CrawlState).toVisit ∧
          u ∉ (⟨[], [['a']], [], [], 0⟩ : CrawlState).visited ∧
          (⟨[['a']], [], [['a']], [], 1⟩ : CrawlState).visited =
            (⟨[], [['a']], [], [], 0⟩ : CrawlState).visited ++ [u] ∧
          u ∉ (⟨[['a']], [], [['a']], [], 1⟩ : CrawlState).toVisit) :=
  c1_frontier_invariant.2.1 (fun _ => FetchOutcome.resp 200 []) (fun _ => 0)
    1 false ⟨[], [['a']], [], [], 0⟩ ⟨[['a']], [], [['a']], [], 1⟩
    (by decide) (by decide)

/-! ## Claim C4: HTTP error handling -/

/-- C4: when the dequeued URL is fresh and its fetch returns an HTTP status
other than 200, the iteration appends exactly one `CrawlError` carrying
that URL and the observed status (with message `HTTP {status}`), leaves the
page list unchanged, and the loop continues on the remaining frontier. -/
theorem c4_http_error_records_error (env : Str → FetchOutcome)
    (choose : List Str → Nat) (mp : Nat) (sm : Bool) (s : CrawlState)
    (st : Nat) (links : List Str)
    (hne : s.toVisit ≠ []) (hmp : s.pageCount < mp)
    (hv : dequeued choose s ∉ s.visited)
    (henv : env (dequeued choose s) = .resp st links) (h200 : st ≠ 200) :
    crawlStep env choose mp sm s =
      some ⟨s.visited ++ [dequeued choose s], remaining choose s, s.pages,
            s.errors ++ [⟨dequeued choose s, st, httpErrMsg st⟩],
            s.pageCount + 1⟩ ∧
    crawlLoop env choose mp sm s =
      crawlLoop env choose mp sm
        ⟨s.visited ++ [dequeued choose s], remaining choose s, s.pages,
         s.errors ++ [⟨dequeued choose s, st, httpErrMsg st⟩],
         s.pageCount + 1⟩ := by
  have hstep : crawlStep env choose mp sm s =
      some ⟨s.visited ++ [dequeued choose s], remaining choose s, s.pages,
            s.errors ++ [⟨dequeued choose s, st, httpErrMsg st⟩],
            s.pageCount + 1⟩ := by
    unfold crawlStep
    rw [if_pos ⟨hne, hmp⟩]
    unfold crawlBody
    rw [if_neg hv, henv]
    dsimp only
    rw [if_neg h200]
  exact ⟨hstep, by rw [crawlLoop.eq_def, hstep]⟩

theorem c4_http_error_records_error_witness :
    crawlStep (fun _ => FetchOutcome.resp 404 []) (fun _ => 0) 5 false
        ⟨[], [['u']], [], [], 0⟩ =
      some ⟨[] ++ [dequeued (fun _ => 0) ⟨[], [['u']], [], [], 0⟩],
            remaining (fun _ => 0) ⟨[], [['u']], [], [], 0⟩, [],
            [] ++ [⟨dequeued (fun _ => 0) ⟨[], [['u']], [], [], 0⟩, 404,
                    httpErrMsg 404⟩], 0 + 1⟩ ∧
    crawlLoop (fun _ => FetchOutcome.resp 404 []) (fun _ => 0) 5 false
        ⟨[], [['u']], [], [], 0⟩ =
      crawlLoop (fun _ => FetchOutcome.resp 404 []) (fun _ => 0) 5 false
        ⟨[] ++ [dequeued (fun _ => 0) ⟨[], [['u']], [], [], 0⟩],
         remaining (fun _ => 0) ⟨[], [['u']], [], [], 0⟩, [],
         [] ++ [⟨dequeued (fun _ => 0) ⟨[], [['u']], [], [], 0⟩, 404,
                 httpErrMsg 404⟩], 0 + 1⟩ :=
  c4_http_error_records_error (fun _ => FetchOutcome.resp 404 []) (fun _ => 0)
    5 false ⟨[], [['u']], [], [], 0⟩ 404 [] (by decide) (by decide)
    (by decide) rfl (by decide)

/-! ## Claim C2: stopping condition and page budget -/

theorem stepN_pageCount_le (env : Str → FetchOutcome)
    (choose : List Str → Nat) (mp : Nat) (sm : Bool) (n : Nat)
    (s : CrawlState) (h0 : s.pageCount ≤ mp) :
    (stepN env choose mp sm n s).pageCount ≤ mp := by
  refine stepN_invariant env choose mp sm (fun t => t.pageCount ≤ mp)
    ?_ n s h0
  intro t t' ht hstep
  rcases crawlStep_measure env choose mp sm t t' hstep with ⟨h1, _⟩ | ⟨h1, h2⟩
  · omega
  · omega

theorem crawlInit_pageCount (seeds : List Str) (base : Str) :
    (crawlInit seeds base).pageCount = 0 := by
  rw [crawlInit]
  by_cases h : seeds = [] <;> simp [h, initState]

/-- C2: the crawl loop stops exactly when the pending set is empty or the
page counter has reached the budget, whichever comes first (remaining
pending URLs are simply left behind); in particular, with a budget of 3, no
sitemap, and 10 valid links discovered on the first page while every fetch
succeeds, exactly 3 page records are produced. -/
theorem c2_stop_condition :
    (∀ env choose mp seeds base,
        (crawl env choose mp seeds base).toVisit = [] ∨
          (crawl env choose mp seeds base).pageCount = mp) ∧
    (crawl
        (fun u => FetchOutcome.resp 200
          (if u = ['z'] then
            [['0'], ['1'], ['2'], ['3'], ['4'], ['5'], ['6'], ['7'], ['8'],
             ['9']]
          else []))
        (fun _ => 0) 3 [] ['z']).pages.length = 3 := by
  constructor
  · intro env choose mp seeds base
    obtain ⟨n, hEq, hNone⟩ :=
      crawlLoop_reached env choose mp (decide (seeds ≠ []))
        (crawlInit seeds base)
    have hle :
        (stepN env choose mp (decide (seeds ≠ [])) n
          (crawlInit seeds base)).pageCount ≤ mp :=
      stepN_pageCount_le env choose mp _ n _
        (by rw [crawlInit_pageCount]; omega)
    rw [crawlStep_eq_none_iff] at hNone
    unfold crawl
    rw [hEq]
    rcases hNone with h | h
    · exact Or.inl h
    · exact Or.inr (by omega)
  · unfold crawl
    rw [crawlLoop_eq_stepN _ _ _ _ 3 _ (by decide)]
    decide

/-! ## Claim C6: sitemap mode never extends the frontier -/

theorem sitemap_step_toVisit_shrinks (env : Str → FetchOutcome)
    (choose : List Str → Nat) (mp : Nat) (s s' : CrawlState)
    (h : crawlStep env choose mp true s = some s') :
    ∀ u, u ∈ s'.toVisit → u ∈ s.toVisit := by
  obtain ⟨hne, hlt, hc⟩ := crawlStep_some_spec env choose mp true s s' h
  have hsub : ∀ u, u ∈ remaining choose s → u ∈ s.toVisit :=
    fun u hu => remaining_subset choose s hu
  rcases hc with ⟨hv, rfl⟩ | ⟨hv, hcase⟩
  · exact fun u hu => hsub u hu
  · rcases hcase with ⟨links, henv, ⟨hsm, rfl⟩ | ⟨hsm, _⟩⟩ |
        ⟨st, links, henv, h200, rfl⟩ | ⟨m, henv, rfl⟩
    · exact fun u hu => hsub u hu
    · exact absurd hsm (by simp)
    · exact fun u hu => hsub u hu
    · exact fun u hu => hsub u hu

theorem sitemap_step_confined (env : Str → FetchOutcome)
    (choose : List Str → Nat) (mp : Nat) (V : List Str) (s s' : CrawlState)
    (hP : ∀ u, u ∈ s.visited ∨ u ∈ s.toVisit → u ∈ V)
    (h : crawlStep env choose mp true s = some s') :
    ∀ u, u ∈ s'.visited ∨ u ∈ s'.toVisit → u ∈ V := by
  have htv := sitemap_step_toVisit_shrinks env choose mp s s' h
  obtain ⟨hne, hlt, hc⟩ := crawlStep_some_spec env choose mp true s s' h
  have hdm : dequeued choose s ∈ s.toVisit := dequeued_mem choose s hne
  rcases hc with ⟨hv, rfl⟩ | ⟨hv, hcase⟩
  · intro u hu
    rcases hu with hu | hu
    · exact hP u (Or.inl hu)
    · exact hP u (Or.inr (remaining_subset choose s hu))
  · have hvis : ∀ u, u ∈ s.visited ++ [dequeued choose s] → u ∈ V := by
      intro u hu
      rcases List.mem_append.mp hu with h1 | h1
      · exact hP u (Or.inl h1)
      · rw [List.mem_singleton] at h1
        exact hP u (Or.inr (h1 ▸ hdm))
    rcases hcase with ⟨links, henv, ⟨hsm, rfl⟩ | ⟨hsm, _⟩⟩ |
        ⟨st, links, henv, h200, rfl⟩ | ⟨m, henv, rfl⟩
    · intro u hu
      rcases hu with hu | hu
      · exact hvis u hu
      · exact hP u (Or.inr (remaining_subset choose s hu))
    · exact absurd hsm (by simp)
    · intro u hu
      rcases hu with hu | hu
      · exact hvis u hu
      · exact hP u (Or.inr (remaining_subset choose s hu))
    · intro u hu
      rcases hu with hu | hu
      · exact hvis u hu
      · exact hP u (Or.inr (remaining_subset choose s hu))

/-- C6: in sitemap mode no link extraction ever happens: every iteration
can only shrink `to_visit`, so after the initial seeding `to_visit` never
gains a URL, and every URL ever visited (processed) at any iterate — hence
also in the final result — is one of the normalized sitemap seeds. -/
theorem c6_sitemap_mode_no_extraction (env : Str → FetchOutcome)
    (choose : List Str → Nat) (mp : Nat) (seeds : List Str) (base : Str)
    (hseeds : seeds ≠ []) :
    (∀ s s', crawlStep env choose mp true s = some s' →
        ∀ u, u ∈ s'.toVisit → u ∈ s.toVisit) ∧
    (∀ n u,
        u ∈ (stepN env choose mp true n (crawlInit seeds base)).visited →
        u ∈ seedFromSitemap seeds) ∧
    (∀ u, u ∈ (crawl env choose mp seeds base).visited →
        u ∈ seedFromSitemap seeds) := by
  have hsm : decide (seeds ≠ []) = true := by simp [hseeds]
  have hinit : ∀ u,
      u ∈ (crawlInit seeds base).visited ∨ u ∈ (crawlInit seeds base).toVisit →
      u ∈ seedFromSitemap seeds := by
    intro u hu
    rw [crawlInit, if_neg hseeds] at hu
    rcases hu with hu | hu
    · exact absurd hu (List.not_mem_nil u)
    · exact hu
  have hstepN : ∀ n u,
      u ∈ (stepN env choose mp true n (crawlInit seeds base)).visited →
      u ∈ seedFromSitemap seeds := by
    intro n u hu
    exact stepN_invariant env choose mp true
      (fun t => ∀ u, u ∈ t.visited ∨ u ∈ t.toVisit → u ∈ seedFromSitemap seeds)
      (fun t t' ht hstep => sitemap_step_confined env choose mp _ t t' ht hstep)
      n _ hinit u (Or.inl hu)
  refine ⟨sitemap_step_toVisit_shrinks env choose mp, hstepN, ?_⟩
  intro u hu
  rw [crawl, hsm] at hu
  obtain ⟨n, hEq, _⟩ := crawlLoop_reached env choose mp true (crawlInit seeds base)
  rw [hEq] at hu
  exact hstepN n u hu

theorem c6_sitemap_mode_no_extraction_witness :
    "http://h/a".data ∈ seedFromSitemap ["http://h/a".data] :=
  (c6_sitemap_mode_no_extraction (fun _ => FetchOutcome.resp 200 [['x']])
    (fun _ => 0) 4 ["http://h/a".data] "http://h".data
    (by decide)).2.1 1 "http://h/a".data (by decide)

/-! ## Claim C10: failures consume the budget -/

theorem step_counts (env : Str → FetchOutcome) (choose : List Str → Nat)
    (mp : Nat) (sm : Bool) (s s' : CrawlState)
    (h : crawlStep env choose mp sm s = some s') :
    s'.pages.length + s'.errors.length + s.pageCount =
      s.pages.length + s.errors.length + s'.pageCount := by
  obtain ⟨hne, hlt, hc⟩ := crawlStep_some_spec env choose mp sm s s' h
  rcases hc with ⟨hv, rfl⟩ | ⟨hv, hcase⟩
  · rfl
  · rcases hcase with ⟨links, henv, ⟨hsm, rfl⟩ | ⟨hsm, rfl⟩⟩ |
        ⟨st, links, henv, h200, rfl⟩ | ⟨m, henv, rfl⟩ <;>
      simp [List.length_append] <;> omega

/-- C10: a failed fetch consumes one unit of the page budget exactly as a
successful one does — every productive iteration increments the page
counter at the dequeue, before the fetch outcome is consulted, and adds
exactly one page record or one error record — so at the end of every crawl
run the number of page records plus the number of errors is at most
`max_pages`. -/
theorem c10_failures_consume_budget :
    (∀ env choose mp sm s s', crawlStep env choose mp sm s = some s' →
        s'.pages.length + s'.errors.length + s.pageCount =
          s.pages.length + s.errors.length + s'.pageCount) ∧
    (∀ env choose mp seeds base,
        (crawl env choose mp seeds base).pages.length +
          (crawl env choose mp seeds base).errors.length ≤ mp) := by
  refine ⟨step_counts, ?_⟩
  intro env choose mp seeds base
  obtain ⟨n, hEq, _⟩ :=
    crawlLoop_reached env choose mp (decide (seeds ≠ []))
      (crawlInit seeds base)
  have hinv :
      (stepN env choose mp (decide (seeds ≠ [])) n
          (crawlInit seeds base)).pages.length +
        (stepN env choose mp (decide (seeds ≠ [])) n
          (crawlInit seeds base)).errors.length =
        (stepN env choose mp (decide (seeds ≠ [])) n
          (crawlInit seeds base)).pageCount := by
    refine stepN_invariant env choose mp _
      (fun t => t.pages.length + t.errors.length = t.pageCount) ?_ n _ ?_
    · intro t t' ht hstep
      have := step_counts env choose mp _ t t' hstep
      omega
    · rw [crawlInit]
      by_cases h : seeds = [] <;> simp [h, initState]
  have hle :
      (stepN env choose mp (decide (seeds ≠ [])) n
        (crawlInit seeds base)).pageCount ≤ mp :=
    stepN_pageCount_le env choose mp _ n _
      (by rw [crawlInit_pageCount]; omega)
  unfold crawl
  rw [hEq]
  omega

theorem c10_failures_consume_budget_witness :
    (⟨[['u']], [], [], [⟨['u'], 404, httpErrMsg 404⟩], 1⟩ : CrawlState).pages.length +
        (⟨[['u']], [], [], [⟨['u'], 404, httpErrMsg 404⟩], 1⟩ : CrawlState).errors.length +
        (⟨[], [['u']], [], [], 0⟩ : CrawlState).pageCount =
      (⟨[], [['u']], [], [], 0⟩ : CrawlState).pages.length +
        (⟨[], [['u']], [], [], 0⟩ : CrawlState).errors.length +
        (⟨[['u']], [], [], [⟨['u'], 404, httpErrMsg 404⟩], 1⟩ : CrawlState).pageCount :=
  c10_failures_consume_budget.1 (fun _ => FetchOutcome.resp 404 [])
    (fun _ => 0) 5 false ⟨[], [['u']], [], [], 0⟩
    ⟨[['u']], [], [], [⟨['u'], 404, httpErrMsg 404⟩], 1⟩ (by decide)

/-! ## Substring lemmas -/

theorem hasSub_iff (nd : Str) : ∀ h : Str,
    hasSub nd h = true ↔ ∃ a b, h = a ++ nd ++ b := by
  intro h
  induction h with
  | nil =>
    rw [hasSub]
    constructor
    · intro he
      rw [List.isEmpty_iff] at he
      exact ⟨[], [], by simp [he]⟩
    · rintro ⟨a, b, hab⟩
      have : nd = [] := by
        rcases List.append_eq_nil.mp hab.symm with ⟨h1, h2⟩
        rcases List.append_eq_nil.mp h1 with ⟨_, h3⟩
        exact h3
      simp [this]
  | cons c t ih =>
    rw [hasSub, Bool.or_eq_true]
    constructor
    · intro hor
      rcases hor with hpre | hsub
      · rw [List.isPrefixOf_iff_prefix] at hpre
        obtain ⟨b, hb⟩ := hpre
        exact ⟨[], b, by simp [hb.symm]⟩
      · obtain ⟨a, b, hab⟩ := ih.mp hsub
        exact ⟨c :: a, b, by simp [hab]⟩
    · rintro ⟨a, b, hab⟩
      cases a with
      | nil =>
        refine Or.inl ?_
        rw [List.isPrefixOf_iff_prefix]
        exact ⟨b, by simpa using hab.symm⟩
      | cons x a' =>
        refine Or.inr (ih.mpr ⟨a', b, ?_⟩)
        have := hab
        simp only [List.cons_append] at this
        exact (List.cons.injEq _ _ _ _).mp this |>.2

theorem hasSub_map_lowerChar (nd h : Str) (hnd : nd.map lowerChar = nd)
    (hs : hasSub nd h = true) : hasSub nd (h.map lowerChar) = true := by
  obtain ⟨a, b, hab⟩ := (hasSub_iff nd h).mp hs
  refine (hasSub_iff nd (h.map lowerChar)).mpr
    ⟨a.map lowerChar, b.map lowerChar, ?_⟩
  rw [hab]
  simp [hnd]

/-! ## Claim C3: property URLs -/

/-- C3: for every URL whose parsed path contains the marker `/property/`
(and any markup), `detect_page_type` classifies the page as `property` (the
property check is the first step of the cascade), and `suggest_redirect`
maps such a page to `/listings/{slug}` where the slug is the final path
segment after stripping trailing slashes. -/
theorem c3_property_classification (url : Str) (body_class_str : Str)
    (p : UrlParts) (hp : urlparse url = .ok p)
    (hmark : hasSub "/property/".data p.path = true) :
    detect_page_type url body_class_str = .ok "property".data ∧
    suggest_redirect ⟨url, "property".data⟩ =
      .ok ("/listings/".data ++ lastSegment p.path) := by
  constructor
  · rw [detect_page_type, hp]
    show Except.ok (detectCascade (p.path.map lowerChar) body_class_str) = _
    rw [detectCascade]
    rw [if_pos ?_]
    refine List.any_eq_true.mpr ⟨"/property/".data, ?_, ?_⟩
    · simp
    · exact hasSub_map_lowerChar _ _ (by decide) hmark
  · rw [suggest_redirect, hp]
    show Except.ok (suggestFromPath "property".data p.path) = _
    rw [suggestFromPath]
    have hlook : lookupRule "property".data = none := by decide
    rw [hlook]
    dsimp only
    rw [if_pos rfl]

theorem c3_property_classification_witness :
    detect_page_type "https://example.com/property/sea-view-villa/".data [] =
      .ok "property".data ∧
    suggest_redirect
        ⟨"https://example.com/property/sea-view-villa/".data,
         "property".data⟩ =
      .ok "/listings/sea-view-villa".data :=
  have h := c3_property_classification
    "https://example.com/property/sea-view-villa/".data []
    ⟨"https".data, "example.com".data, "/property/sea-view-villa/".data,
     [], [], []⟩ (by decide) (by decide)
  ⟨h.1, h.2.trans (by decide)⟩

/-! ## Claim C7: redirect totality -/

theorem rewriteBlogPre_shape (p : Str) :
    rewriteBlogPre p = p ∨
      (rewriteBlogPre p ≠ [] ∧ (rewriteBlogPre p).headD ' ' = '/') := by
  rw [rewriteBlogPre]
  split
  · exact Or.inr ⟨by simp, by simp⟩
  · split
    · exact Or.inr ⟨by simp, by simp⟩
    · split
      · exact Or.inr ⟨by simp, by simp⟩
      · exact Or.inl rfl

theorem rewritePropPre_shape (p : Str) :
    rewritePropPre p = p ∨
      (rewritePropPre p ≠ [] ∧ (rewritePropPre p).headD ' ' = '/') := by
  rw [rewritePropPre]
  split
  · exact Or.inr ⟨by simp, by simp⟩
  · split
    · exact Or.inr ⟨by simp, by simp⟩
    · split
      · exact Or.inr ⟨by simp, by simp⟩
      · exact Or.inl rfl

/-- C7: for every page whose URL parses with a path that is empty or
begins with a slash, and whose page type is one of the fifteen enumerated
types, `suggest_redirect` succeeds and returns a non-empty path starting
with `/`. -/
theorem c7_redirect_totality (url : Str) (pt : Str) (p : UrlParts)
    (hp : urlparse url = .ok p)
    (hpath : p.path = [] ∨ p.path.headD ' ' = '/')
    (htype : pt ∈ pageTypes) :
    ∃ r, suggest_redirect ⟨url, pt⟩ = .ok r ∧ r ≠ [] ∧ r.headD ' ' = '/' := by
  have hmain : ∀ q, (q = [] ∨ q.headD ' ' = '/') →
      suggestFromPath pt q ≠ [] ∧ (suggestFromPath pt q).headD ' ' = '/' := by
    intro q hq
    have hfall : ∀ pt0 : Str,
        (∀ q0 : Str, suggestFromPath pt0 q0 =
          if rewritePropPre (rewriteBlogPre q0) ≠ q0 then
            rewritePropPre (rewriteBlogPre q0)
          else "/properties".data) →
        suggestFromPath pt0 q ≠ [] ∧ (suggestFromPath pt0 q).headD ' ' = '/' := by
      intro pt0 heq
      rw [heq q]
      by_cases hcl : rewritePropPre (rewriteBlogPre q) ≠ q
      · rw [if_pos hcl]
        rcases rewritePropPre_shape (rewriteBlogPre q) with h2 | h2
        · rw [h2]
          rcases rewriteBlogPre_shape q with h1 | h1
          · exact absurd (h2.trans h1) hcl
          · exact h1
        · exact h2
      · rw [if_neg hcl]
        exact ⟨by decide, by decide⟩
    rw [pageTypes] at htype
    simp only [List.map_cons, List.map_nil, List.mem_cons,
      List.not_mem_nil, or_false] at htype
    rcases htype with rfl | rfl | rfl | rfl | rfl | rfl | rfl | rfl | rfl |
        rfl | rfl | rfl | rfl | rfl | rfl
    · rw [show ∀ q0 : Str, suggestFromPath "homepage".data q0 = "/".data
        from fun _ => rfl]
      exact ⟨by decide, by decide⟩
    · rw [show ∀ q0 : Str, suggestFromPath "property".data q0 =
          "/listings/".data ++ lastSegment q0 from fun _ => rfl]
      exact ⟨by simp, by simp⟩
    · rw [show ∀ q0 : Str, suggestFromPath "blog".data q0 =
          "/blogs/".data ++ lastSegment q0 from fun _ => rfl]
      exact ⟨by simp, by simp⟩
    · rw [show ∀ q0 : Str, suggestFromPath "archive".data q0 =
          "/properties".data from fun _ => rfl]
      exact ⟨by decide, by decide⟩
    · rw [show ∀ q0 : Str, suggestFromPath "agent".data q0 = "/about".data
        from fun _ => rfl]
      exact ⟨by decide, by decide⟩
    · rw [show ∀ q0 : Str, suggestFromPath "about".data q0 = "/about".data
        from fun _ => rfl]
      exact ⟨by decide, by decide⟩
    · rw [show ∀ q0 : Str, suggestFromPath "contact".data q0 =
          "/contact".data from fun _ => rfl]
      exact ⟨by decide, by decide⟩
    · rw [show ∀ q0 : Str, suggestFromPath "privacy".data q0 =
          "/privacy-policy".data from fun _ => rfl]
      exact ⟨by decide, by decide⟩
    · rw [show ∀ q0 : Str, suggestFromPath "terms".data q0 =
          "/terms-and-conditions".data from fun _ => rfl]
      exact ⟨by decide, by decide⟩
    · rw [show ∀ q0 : Str, suggestFromPath "service".data q0 =
          "/services/".data ++ lastSegment q0 from fun _ => rfl]
      exact ⟨by simp, by simp⟩
    · rw [show ∀ q0 : Str, suggestFromPath "rental".data q0 =
          "/rental-services".data from fun _ => rfl]
      exact ⟨by decide, by decide⟩
    · rw [show ∀ q0 : Str, suggestFromPath "location".data q0 =
          "/locations/".data ++ lastSegment q0 from fun _ => rfl]
      exact ⟨by simp, by simp⟩
    · rw [show ∀ q0 : Str, suggestFromPath "faq".data q0 = "/faq".data
        from fun _ => rfl]
      exact ⟨by decide, by decide⟩
    · exact hfall "page".data (fun _ => rfl)
    · exact hfall "unknown".data (fun _ => rfl)
  obtain ⟨hne, hhd⟩ := hmain p.path hpath
  refine ⟨suggestFromPath pt p.path, ?_, hne, hhd⟩
  rw [suggest_redirect, hp]
  rfl

theorem c7_redirect_totality_witness :
    ∃ r,
      suggest_redirect ⟨"https://example.com/weird".data, "unknown".data⟩ =
        .ok r ∧ r ≠ [] ∧ r.headD ' ' = '/' :=
  c7_redirect_totality "https://example.com/weird".data "unknown".data
    ⟨"https".data, "example.com".data, "/weird".data, [], [], []⟩
    (by decide) (by decide) (by decide)

/-! ## Character-level lemmas for the normalizer proofs -/

theorem toNat_ofNat_valid (n : Nat) (h : n < 55296) :
    (Char.ofNat n).toNat = n := by
  rw [Char.ofNat, dif_pos (Or.inl h)]
  rfl

theorem toNat_lowerChar (c : Char) :
    (lowerChar c).toNat =
      if 65 ≤ c.toNat ∧ c.toNat ≤ 90 then c.toNat + 32 else c.toNat := by
  rw [lowerChar]
  split
  · rename_i h
    exact toNat_ofNat_valid _ (by omega)
  · rfl

theorem lowerChar_idem (c : Char) : lowerChar (lowerChar c) = lowerChar c := by
  by_cases h : 65 ≤ c.toNat ∧ c.toNat ≤ 90
  · have h2 : ¬(65 ≤ (lowerChar c).toNat ∧ (lowerChar c).toNat ≤ 90) := by
      rw [toNat_lowerChar, if_pos h]
      omega
    rw [lowerChar, if_neg h2]
  · have he : lowerChar c = c := by rw [lowerChar, if_neg h]
    rw [he]
    exact he

theorem asciiAlpha_iff (c : Char) :
    asciiAlpha c = true ↔
      (65 ≤ c.toNat ∧ c.toNat ≤ 90) ∨ (97 ≤ c.toNat ∧ c.toNat ≤ 122) := by
  rw [asciiAlpha, decide_eq_true_iff]

theorem asciiAlpha_lowerChar (c : Char) (h : asciiAlpha c = true) :
    asciiAlpha (lowerChar c) = true := by
  rw [asciiAlpha_iff] at h ⊢
  rw [toNat_lowerChar]
  rcases h with h | h
  · rw [if_pos h]
    omega
  · rw [if_neg (by omega)]
    omega

theorem isSchemeChar_iff (c : Char) :
    isSchemeChar c = true ↔
      ((65 ≤ c.toNat ∧ c.toNat ≤ 90) ∨ (97 ≤ c.toNat ∧ c.toNat ≤ 122)) ∨
        (48 ≤ c.toNat ∧ c.toNat ≤ 57) ∨ (c = '+' ∨ c = '-' ∨ c = '.') := by
  rw [isSchemeChar, Bool.or_eq_true, Bool.or_eq_true, asciiAlpha_iff,
    decide_eq_true_iff, decide_eq_true_iff, or_assoc]

theorem isSchemeChar_lowerChar (c : Char) (h : isSchemeChar c = true) :
    isSchemeChar (lowerChar c) = true := by
  rw [isSchemeChar_iff] at h
  rcases h with h | h | h
  · rw [isSchemeChar_iff]
    exact Or.inl
      ((asciiAlpha_iff _).mp (asciiAlpha_lowerChar c ((asciiAlpha_iff c).mpr h)))
  · rw [isSchemeChar_iff]
    rw [toNat_lowerChar, if_neg (by omega)]
    exact Or.inr (Or.inl h)
  · rcases h with rfl | rfl | rfl <;> decide

theorem isSchemeChar_toNat_gt (c : Char) (h : isSchemeChar c = true) :
    32 < c.toNat := by
  rw [isSchemeChar_iff] at h
  rcases h with h | h | h
  · omega
  · omega
  · rcases h with rfl | rfl | rfl <;> decide

theorem isSchemeChar_ne (c : Char) (h : isSchemeChar c = true) :
    c ≠ ':' ∧ c ≠ '/' ∧ c ≠ '?' ∧ c ≠ '#' ∧ c ≠ ';' ∧
      c ≠ '\t' ∧ c ≠ '\x0d' ∧ c ≠ '\n' := by
  refine ⟨?_, ?_, ?_, ?_, ?_, ?_, ?_, ?_⟩ <;>
    (intro heq; rw [heq] at h; exact absurd h (by decide))

theorem asciiAlpha_toNat_gt (c : Char) (h : asciiAlpha c = true) :
    32 < c.toNat := by
  rw [asciiAlpha_iff] at h
  omega

/-! ## String-level lemmas for the normalizer proofs -/

theorem map_lowerChar_fixed (l : Str) (h : ∀ x ∈ l, lowerChar x = x) :
    l.map lowerChar = l := by
  rw [List.map_congr_left h]
  exact List.map_id' l

theorem schemeSplit_eq_some (w : Str) :
    ∀ q, schemeSplit w = some q → w = q.1 ++ ':' :: q.2 ∧ ':' ∉ q.1 := by
  induction w with
  | nil => intro q h; exact absurd h (by rw [schemeSplit]; simp)
  | cons c t ih =>
    intro q h
    rw [schemeSplit] at h
    by_cases hc : c = ':'
    · rw [if_pos hc] at h
      cases h
      exact ⟨by simp [hc], by simp⟩
    · rw [if_neg hc] at h
      cases hq : schemeSplit t with
      | none => rw [hq] at h; exact absurd h (by simp)
      | some q2 =>
        rw [hq] at h
        cases h
        obtain ⟨h1, h2⟩ := ih q2 hq
        constructor
        · rw [List.cons_append, ← h1]
        · intro hmem
          rcases List.mem_cons.mp hmem with h3 | h3
          · exact hc h3.symm
          · exact h2 h3

theorem schemeSplit_append (a : Str) (r : Str) (ha : ':' ∉ a) :
    schemeSplit (a ++ ':' :: r) = some (a, r) := by
  induction a with
  | nil => rw [List.nil_append, schemeSplit, if_pos rfl]
  | cons c t ih =>
    have hc : c ≠ ':' := fun h => ha (h ▸ List.mem_cons_self c t)
    have ht : ':' ∉ t := fun h => ha (List.mem_cons_of_mem c h)
    rw [List.cons_append, schemeSplit, if_neg hc, ih ht]

theorem splitScheme_spec (w : Str) (s r : Str)
    (h : splitScheme w = (s, r)) (hs : s ≠ []) :
    ∃ a, w = a ++ ':' :: r ∧ s = a.map lowerChar ∧ a ≠ [] ∧
      (∀ x ∈ a, isSchemeChar x = true) ∧ asciiAlpha (a.headD ' ') = true := by
  rw [splitScheme] at h
  cases hq : schemeSplit w with
  | none => rw [hq] at h; cases h; exact absurd rfl hs
  | some q =>
    rw [hq] at h
    dsimp only at h
    by_cases hcond : q.1 ≠ [] ∧ asciiAlpha (w.headD ' ') ∧ q.1.all isSchemeChar
    · rw [if_pos hcond] at h
      cases h
      obtain ⟨h1, _⟩ := schemeSplit_eq_some w q hq
      refine ⟨q.1, h1, rfl, hcond.1, fun x hx => List.all_eq_true.mp hcond.2.2 x hx, ?_⟩
      have hw : w.headD ' ' = q.1.headD ' ' := by
        cases hq1 : q.1 with
        | nil => exact absurd hq1 hcond.1
        | cons c t => rw [h1, hq1]; rfl
      rw [← hw]
      exact hcond.2.1
    · rw [if_neg hcond] at h
      cases h
      exact absurd rfl hs

theorem splitScheme_reconstruct (s r : Str) (hs : s ≠ [])
    (hsc : ∀ x ∈ s, isSchemeChar x = true ∧ lowerChar x = x)
    (hh : asciiAlpha (s.headD ' ') = true) :
    splitScheme (s ++ ':' :: r) = (s, r) := by
  have hns : ':' ∉ s := fun hmem => ((isSchemeChar_ne _ (hsc _ hmem).1).1 rfl)
  rw [splitScheme, schemeSplit_append s r hns]
  dsimp only
  have hhead : (s ++ ':' :: r).headD ' ' = s.headD ' ' := by
    cases hs1 : s with
    | nil => exact absurd hs1 hs
    | cons c t => rfl
  rw [if_pos ⟨hs, by rw [hhead]; exact hh,
    List.all_eq_true.mpr (fun x hx => (hsc x hx).1)⟩]
  rw [map_lowerChar_fixed s (fun x hx => (hsc x hx).2)]

theorem splitFirst_spec (c : Char) (l : Str) (hc : c ∈ l) :
    (splitFirst c l).1 ++ c :: (splitFirst c l).2 = l ∧
      c ∉ (splitFirst c l).1 := by
  induction l with
  | nil => exact absurd hc (List.not_mem_nil c)
  | cons x t ih =>
    rw [splitFirst]
    by_cases hx : x = c
    · rw [if_pos hx]
      exact ⟨by simp [hx], by simp⟩
    · rw [if_neg hx]
      have hct : c ∈ t := by
        rcases List.mem_cons.mp hc with h | h
        · exact absurd h.symm hx
        · exact h
      obtain ⟨h1, h2⟩ := ih hct
      constructor
      · rw [List.cons_append, h1]
      · intro hmem
        rcases List.mem_cons.mp hmem with h3 | h3
        · exact hx h3.symm
        · exact h2 h3

theorem cutFragment_of_not_mem (l : Str) (h : '#' ∉ l) :
    cutFragment l = (l, []) := by
  rw [cutFragment, if_neg h]

theorem cutQuery_of_not_mem (l : Str) (h : '?' ∉ l) :
    cutQuery l = (l, []) := by
  rw [cutQuery, if_neg h]

theorem cutFragment_fst_subset (l : Str) :
    ∀ x ∈ (cutFragment l).1, x ∈ l := by
  rw [cutFragment]
  by_cases h : '#' ∈ l
  · rw [if_pos h]
    intro x hx
    obtain ⟨h1, _⟩ := splitFirst_spec '#' l h
    rw [← h1]
    exact List.mem_append.mpr (Or.inl hx)
  · rw [if_neg h]
    exact fun x hx => hx

theorem cutFragment_fst_not_mem (l : Str) : '#' ∉ (cutFragment l).1 := by
  rw [cutFragment]
  by_cases h : '#' ∈ l
  · rw [if_pos h]
    exact (splitFirst_spec '#' l h).2
  · rw [if_neg h]
    exact h

theorem cutQuery_fst_subset (l : Str) : ∀ x ∈ (cutQuery l).1, x ∈ l := by
  rw [cutQuery]
  by_cases h : '?' ∈ l
  · rw [if_pos h]
    intro x hx
    obtain ⟨h1, _⟩ := splitFirst_spec '?' l h
    rw [← h1]
    exact List.mem_append.mpr (Or.inl hx)
  · rw [if_neg h]
    exact fun x hx => hx

theorem cutQuery_fst_not_mem (l : Str) : '?' ∉ (cutQuery l).1 := by
  rw [cutQuery]
  by_cases h : '?' ∈ l
  · rw [if_pos h]
    exact (splitFirst_spec '?' l h).2
  · rw [if_neg h]
    exact h

/-! ## rstrip lemmas -/

theorem rstripSlash_eq_self (l : Str) (h : l.getLastD ' ' ≠ '/') :
    rstripSlash l = l := by
  rw [rstripSlash]
  cases hr : l.reverse with
  | nil =>
    rw [List.reverse_eq_nil_iff] at hr
    rw [hr]
    rfl
  | cons c t =>
    have hc : c ≠ '/' := by
      have hh : l.getLast? = some c := by
        rw [← List.head?_reverse, hr]
        rfl
      intro hcs
      apply h
      rw [List.getLastD_eq_getLast?, hh, hcs]
      rfl
    rw [List.dropWhile_cons, if_neg (by simp [hc]), ← hr,
      List.reverse_reverse]

theorem rstripSlash_append_of_ne (a b : Str) (h : rstripSlash b ≠ []) :
    rstripSlash (a ++ b) = a ++ rstripSlash b := by
  have hd : ¬ (b.reverse.dropWhile (fun c => decide (c = '/'))).isEmpty := by
    rw [List.isEmpty_iff]
    intro hding
    apply h
    rw [rstripSlash, hding]
    rfl
  rw [rstripSlash, List.reverse_append, List.dropWhile_append, if_neg hd,
    List.reverse_append, List.reverse_reverse]
  rfl

theorem rstripSlash_append_slashes (a b : Str) (h : ∀ x ∈ b, x = '/') :
    rstripSlash (a ++ b) = rstripSlash a := by
  rw [rstripSlash, List.reverse_append,
    List.dropWhile_append_of_pos (by
      intro x hx
      rw [List.mem_reverse] at hx
      simp [h x hx])]
  rfl

theorem rstripSlash_eq_nil (l : Str) (h : rstripSlash l = []) :
    ∀ x ∈ l, x = '/' := by
  rw [rstripSlash] at h
  rw [List.reverse_eq_nil_iff, List.dropWhile_eq_nil_iff] at h
  intro x hx
  have := h x (List.mem_reverse.mpr hx)
  simpa using this

theorem rstripSlash_getLast (l : Str) (h : rstripSlash l ≠ []) :
    (rstripSlash l).getLastD ' ' ≠ '/' := by
  rw [rstripSlash] at h ⊢
  cases hd : l.reverse.dropWhile (fun c => decide (c = '/')) with
  | nil => rw [hd] at h; exact absurd rfl h
  | cons c t =>
    have hc : decide (c = '/') = false := by
      have := List.head?_dropWhile_not (fun c => decide (c = '/')) l.reverse
      rw [hd] at this
      exact this
    rw [List.getLastD_eq_getLast?, List.getLast?_reverse]
    simp only [List.head?_cons, Option.getD_some]
    simpa using hc


/-! ## Parse characterization lemmas -/

theorem splitScheme_snd_subset (w : Str) : ∀ x ∈ (splitScheme w).2, x ∈ w := by
  rw [splitScheme]
  cases hq : schemeSplit w with
  | none => exact fun x hx => hx
  | some q =>
    dsimp only
    split
    · obtain ⟨h1, _⟩ := schemeSplit_eq_some w q hq
      intro x hx
      rw [h1]
      exact List.mem_append.mpr (Or.inr (List.mem_cons_of_mem _ hx))
    · exact fun x hx => hx

theorem splitParamsFn_fst_subset (p : Str) :
    ∀ x ∈ (splitParamsFn p).1, x ∈ p := by
  rw [splitParamsFn]
  split
  · dsimp only
    split
    · exact fun x hx => List.take_subset _ _ hx
    · exact fun x hx => hx
  · split
    · exact fun x hx => List.take_subset _ _ hx
    · exact fun x hx => hx

theorem clean_subset (u : Str) : ∀ x ∈ removeUnsafe (lstripC0 u), x ∈ u :=
  fun x hx =>
    (List.dropWhile_sublist _).subset ((List.filter_sublist _).subset hx)

theorem clean_unsafe_free (u : Str) :
    ∀ x ∈ removeUnsafe (lstripC0 u),
      x ≠ '\t' ∧ x ≠ '\x0d' ∧ x ≠ '\n' := by
  intro x hx
  rw [removeUnsafe, List.mem_filter] at hx
  exact of_decide_eq_true hx.2

theorem lstripC0_cons (c : Char) (t : Str) (h : 32 < c.toNat) :
    lstripC0 (c :: t) = c :: t := by
  rw [lstripC0, List.dropWhile_cons, if_neg (by simp; omega)]

theorem removeUnsafe_eq_self (l : Str)
    (h : ∀ x ∈ l, x ≠ '\t' ∧ x ≠ '\x0d' ∧ x ≠ '\n') :
    removeUnsafe l = l := by
  rw [removeUnsafe, List.filter_eq_self]
  intro a ha
  exact decide_eq_true (h a ha)

theorem urlsplit_ok_scheme (u : Str) (q : UrlParts)
    (h : urlsplit u = .ok q) (hs : q.scheme ≠ []) :
    (∀ x ∈ q.scheme, isSchemeChar x = true ∧ lowerChar x = x) ∧
      asciiAlpha (q.scheme.headD ' ') = true := by
  rw [urlsplit] at h
  dsimp only at h
  have hsch : q.scheme =
      (splitScheme (removeUnsafe (lstripC0 u))).1 := by
    split at h
    · split at h
      · exact absurd h (by simp)
      · cases h
        rfl
    · cases h
      rfl
  obtain ⟨a, _, hmap, hane, hsc, hal⟩ :=
    splitScheme_spec (removeUnsafe (lstripC0 u)) q.scheme
      (splitScheme (removeUnsafe (lstripC0 u))).2 (by rw [hsch]) (by exact hs)
  constructor
  · intro x hx
    rw [hmap] at hx
    obtain ⟨y, hy, rfl⟩ := List.mem_map.mp hx
    exact ⟨isSchemeChar_lowerChar y (hsc y hy), lowerChar_idem y⟩
  · have hhd : q.scheme.headD ' ' = lowerChar (a.headD ' ') := by
      cases ha : a with
      | nil => exact absurd ha hane
      | cons c t => rw [hmap, ha]; rfl
    rw [hhd]
    exact asciiAlpha_lowerChar _ hal

theorem urlsplit_ok_netloc_path (u : Str) (q : UrlParts)
    (h : urlsplit u = .ok q) :
    (∀ x ∈ q.netloc, notDelim x = true) ∧
      (∀ x ∈ q.netloc, x ∈ removeUnsafe (lstripC0 u)) ∧
      (∀ x ∈ q.path, x ∈ removeUnsafe (lstripC0 u)) ∧
      '#' ∉ q.path ∧ '?' ∉ q.path := by
  have hsub2 : ∀ x ∈ (splitScheme (removeUnsafe (lstripC0 u))).2,
      x ∈ removeUnsafe (lstripC0 u) :=
    fun x hx => splitScheme_snd_subset _ x hx
  rw [urlsplit] at h
  dsimp only at h
  split at h
  case h_1 rest heq =>
    split at h
    · exact absurd h (by simp)
    · cases h
      refine ⟨fun x hx => List.mem_takeWhile_imp hx, ?_, ?_, ?_, ?_⟩
      · intro x hx
        apply hsub2
        rw [heq]
        exact List.mem_cons_of_mem _ (List.mem_cons_of_mem _
          ((List.takeWhile_sublist _).subset hx))
      · intro x hx
        apply hsub2
        rw [heq]
        refine List.mem_cons_of_mem _ (List.mem_cons_of_mem _ ?_)
        exact (List.dropWhile_sublist _).subset
          (cutFragment_fst_subset _ x (cutQuery_fst_subset _ x hx))
      · intro hx
        exact cutFragment_fst_not_mem _ (cutQuery_fst_subset _ _ hx)
      · intro hx
        exact cutQuery_fst_not_mem _ hx
  case h_2 =>
    cases h
    refine ⟨fun x hx => absurd hx (List.not_mem_nil x),
      fun x hx => absurd hx (List.not_mem_nil x), ?_, ?_, ?_⟩
    · intro x hx
      exact hsub2 x
        (cutFragment_fst_subset _ x (cutQuery_fst_subset _ x hx))
    · intro hx
      exact cutFragment_fst_not_mem _ (cutQuery_fst_subset _ _ hx)
    · intro hx
      exact cutQuery_fst_not_mem _ hx

theorem urlparse_ok_elim (u : Str) (p : UrlParts)
    (h : urlparse u = .ok p) :
    ∃ q, urlsplit u = .ok q ∧ p.scheme = q.scheme ∧ p.netloc = q.netloc ∧
      ∀ x ∈ p.path, x ∈ q.path := by
  rw [urlparse] at h
  cases hq : urlsplit u with
  | error e => rw [hq] at h; exact absurd h (by simp [Except.map])
  | ok q =>
    rw [hq] at h
    simp only [Except.map] at h
    have hfp := Except.ok.inj h
    refine ⟨q, rfl, ?_⟩
    rw [← hfp]
    split
    · exact ⟨rfl, rfl, fun x hx => splitParamsFn_fst_subset _ x hx⟩
    · exact ⟨rfl, rfl, fun x hx => hx⟩

/-! ## Reparse lemmas: `urlparse` of a rebuilt URL -/

theorem clean_eq_self_of_scheme (s : Str) (r : Str) (hs : s ≠ [])
    (hsc : ∀ x ∈ s, isSchemeChar x = true)
    (hh : asciiAlpha (s.headD ' ') = true)
    (hr : ∀ x ∈ r, x ≠ '\t' ∧ x ≠ '\x0d' ∧ x ≠ '\n') :
    removeUnsafe (lstripC0 (s ++ ':' :: r)) = s ++ ':' :: r := by
  have hall : ∀ x ∈ s ++ ':' :: r, x ≠ '\t' ∧ x ≠ '\x0d' ∧ x ≠ '\n' := by
    intro x hx
    rcases List.mem_append.mp hx with h1 | h1
    · obtain ⟨_, _, _, _, _, h2, h3, h4⟩ := isSchemeChar_ne x (hsc x h1)
      exact ⟨h2, h3, h4⟩
    · rcases List.mem_cons.mp h1 with h2 | h2
      · subst h2
        exact ⟨by decide, by decide, by decide⟩
      · exact hr x h2
  obtain ⟨c, t, rfl⟩ : ∃ c t, s = c :: t := by
    cases s with
    | nil => exact absurd rfl hs
    | cons c t => exact ⟨c, t, rfl⟩
  have hgt : 32 < c.toNat := asciiAlpha_toNat_gt c hh
  rw [List.cons_append, lstripC0_cons c _ hgt]
  exact removeUnsafe_eq_self _ (fun x hx => hall x hx)

theorem urlparse_reconstruct (s w : Str) (hs : s ≠ [])
    (hsc : ∀ x ∈ s, isSchemeChar x = true ∧ lowerChar x = x)
    (hh : asciiAlpha (s.headD ' ') = true)
    (hwu : ∀ x ∈ w, x ≠ '\t' ∧ x ≠ '\x0d' ∧ x ≠ '\n')
    (hw1 : '#' ∉ w) (hw2 : '?' ∉ w) (hw3 : ';' ∉ w)
    (hw4 : '[' ∉ w) (hw5 : ']' ∉ w) :
    urlparse (s ++ ':' :: '/' :: '/' :: w) =
      .ok ⟨s, w.takeWhile notDelim, w.dropWhile notDelim, [], [], []⟩ := by
  have hclean : removeUnsafe (lstripC0 (s ++ ':' :: '/' :: '/' :: w)) =
      s ++ ':' :: '/' :: '/' :: w := by
    refine clean_eq_self_of_scheme s _ hs (fun x hx => (hsc x hx).1) hh ?_
    intro x hx
    rcases List.mem_cons.mp hx with h1 | h1
    · subst h1; exact ⟨by decide, by decide, by decide⟩
    rcases List.mem_cons.mp h1 with h2 | h2
    · subst h2; exact ⟨by decide, by decide, by decide⟩
    · exact hwu x h2
  have hsp : splitScheme (s ++ ':' :: '/' :: '/' :: w) =
      (s, '/' :: '/' :: w) := splitScheme_reconstruct s _ hs hsc hh
  have hsplit : urlsplit (s ++ ':' :: '/' :: '/' :: w) =
      .ok ⟨s, w.takeWhile notDelim, w.dropWhile notDelim, [], [], []⟩ := by
    rw [urlsplit]
    dsimp only
    rw [hclean, hsp]
    dsimp only
    split
    case h_2 hne => exact absurd rfl (hne w)
    case h_1 rest heq =>
      obtain rfl : rest = w := by
        simpa using heq.symm
      rw [if_neg ?hbr]
      case hbr =>
        rintro (⟨h1, _⟩ | ⟨h1, _⟩)
        · exact hw4 ((List.takeWhile_sublist _).subset h1)
        · exact hw5 ((List.takeWhile_sublist _).subset h1)
      rw [cutFragment_of_not_mem _
        (fun hx => hw1 ((List.dropWhile_sublist _).subset hx))]
      dsimp only
      rw [cutQuery_of_not_mem _
        (fun hx => hw2 ((List.dropWhile_sublist _).subset hx))]
  rw [urlparse, hsplit]
  simp only [Except.map]
  rw [if_neg ?hpar]
  case hpar =>
    rintro ⟨_, hmem⟩
    exact hw3 ((List.dropWhile_sublist _).subset hmem)

theorem urlparse_reconstruct_bare (s : Str) (hs : s ≠ [])
    (hsc : ∀ x ∈ s, isSchemeChar x = true ∧ lowerChar x = x)
    (hh : asciiAlpha (s.headD ' ') = true) :
    urlparse (s ++ [':']) = .ok ⟨s, [], [], [], [], []⟩ := by
  have hclean : removeUnsafe (lstripC0 (s ++ [':'])) = s ++ [':'] :=
    clean_eq_self_of_scheme s [] hs (fun x hx => (hsc x hx).1) hh
      (fun x hx => absurd hx (List.not_mem_nil x))
  have hsp : splitScheme (s ++ [':']) = (s, []) :=
    splitScheme_reconstruct s [] hs hsc hh
  have hsplit : urlsplit (s ++ [':']) = .ok ⟨s, [], [], [], [], []⟩ := by
    rw [urlsplit]
    dsimp only
    rw [hclean, hsp]
    dsimp only
    rw [cutFragment_of_not_mem _ (List.not_mem_nil _)]
    dsimp only
    rw [cutQuery_of_not_mem _ (List.not_mem_nil _)]
  rw [urlparse, hsplit]
  simp only [Except.map]
  rw [if_neg ?hpar]
  case hpar =>
    rintro ⟨_, hmem⟩
    exact List.not_mem_nil ';' hmem

/-! ## Claim C9: the normalizer can raise -/

/-- C9 counterexample: `normalize_url` propagates the `ValueError` that
`urlparse` raises on a netloc with an unbalanced square bracket, so it does
not return a string for every input. -/
theorem c9_normalize_raises :
    normalize_url "http://[".data = .error "Invalid IPv6 URL" := by decide

theorem urlsplit_ok_of_no_brackets (u : Str) (hlb : '[' ∉ u)
    (hrb : ']' ∉ u) : ∃ q, urlsplit u = .ok q := by
  have hsub2 : ∀ x ∈ (splitScheme (removeUnsafe (lstripC0 u))).2, x ∈ u :=
    fun x hx => clean_subset u x (splitScheme_snd_subset _ x hx)
  rw [urlsplit]
  dsimp only
  split
  case h_1 rest heq =>
    rw [if_neg ?hbr]
    case hbr =>
      have hrest : ∀ x ∈ rest, x ∈ u := by
        intro x hx
        apply hsub2
        rw [heq]
        exact List.mem_cons_of_mem _ (List.mem_cons_of_mem _ hx)
      rintro (⟨h1, _⟩ | ⟨h1, _⟩)
      · exact hlb (hrest _ ((List.takeWhile_sublist _).subset h1))
      · exact hrb (hrest _ ((List.takeWhile_sublist _).subset h1))
    exact ⟨_, rfl⟩
  case h_2 => exact ⟨_, rfl⟩

/-- C9 amended: for every ASCII input containing no square bracket,
`normalize_url` returns a string (raising is impossible; the ASCII
restriction matches the scope of the embedding, which does not model
CPython's non-ASCII NFKC netloc check). -/
theorem c9_normalize_total_amended (u : Str)
    (hascii : ∀ x ∈ u, x.toNat ≤ 127) (hlb : '[' ∉ u) (hrb : ']' ∉ u) :
    ∃ v, normalize_url u = .ok v := by
  obtain ⟨q, hq⟩ := urlsplit_ok_of_no_brackets u hlb hrb
  rw [normalize_url, urlparse, hq]
  exact ⟨_, rfl⟩

theorem c9_normalize_total_amended_witness :
    ∃ v, normalize_url "https://example.com/a/".data = .ok v :=
  c9_normalize_total_amended "https://example.com/a/".data (by decide)
    (by decide) (by decide)

/-! ## Claim C8: normalization idempotence -/

theorem rstripSlash_subset (l : Str) : ∀ x ∈ rstripSlash l, x ∈ l := by
  intro x hx
  rw [rstripSlash, List.mem_reverse] at hx
  exact List.mem_reverse.mp ((List.dropWhile_sublist _).subset hx)

theorem getLastD_append_of_ne_nil (a b : Str) (hb : b ≠ []) :
    (a ++ b).getLastD ' ' = b.getLastD ' ' := by
  rw [List.getLastD_eq_getLast?, List.getLastD_eq_getLast?,
    List.getLast?_append, List.getLast?_eq_getLast b hb]
  rfl

/-- C8 counterexample: normalization is not idempotent.  For the
scheme-less input `foo`, the first pass yields `://foo` and a second pass
yields `://://foo`. -/
theorem c8_not_idempotent :
    ¬((normalize_url "foo".data).bind normalize_url =
        normalize_url "foo".data) := by decide

/-- C8 amended: normalization is idempotent on every ASCII input that
carries an explicit URL scheme and contains no square bracket and no
semicolon.  (Scheme-less inputs gain a second `://` prefix on the second
pass; square brackets can turn a path character into a netloc bracket and
raise; a semicolon can become a `params` separator after the trailing
slash is stripped, as in `http://h/a;x/` → `http://h/a;x` → `http://h/a`;
the ASCII restriction matches the scope of the embedding.) -/
theorem c8_idempotent_amended (u : Str) (p : UrlParts)
    (hascii : ∀ x ∈ u, x.toNat ≤ 127)
    (hlb : '[' ∉ u) (hrb : ']' ∉ u) (hsemi : ';' ∉ u)
    (hp : urlparse u = .ok p) (hs : p.scheme ≠ []) :
    (normalize_url u).bind normalize_url = normalize_url u := by
  obtain ⟨q, hq, hsch, hnet, hpath⟩ := urlparse_ok_elim u p hp
  obtain ⟨hqProps, hqHead⟩ := urlsplit_ok_scheme u q hq (by rw [← hsch]; exact hs)
  have hsProps : ∀ x ∈ p.scheme, isSchemeChar x = true ∧ lowerChar x = x := by
    rw [hsch]; exact hqProps
  have hsHead : asciiAlpha (p.scheme.headD ' ') = true := by
    rw [hsch]; exact hqHead
  obtain ⟨hqDelim, hqNetC, hqPathC, hqHash, hqQm⟩ :=
    urlsplit_ok_netloc_path u q hq
  have hnDelim : ∀ x ∈ p.netloc, notDelim x = true := by
    rw [hnet]; exact hqDelim
  have hnClean : ∀ x ∈ p.netloc, x ∈ removeUnsafe (lstripC0 u) := by
    rw [hnet]; exact hqNetC
  have hpClean : ∀ x ∈ p.path, x ∈ removeUnsafe (lstripC0 u) :=
    fun x hx => hqPathC x (hpath x hx)
  have hpHash : '#' ∉ p.path := fun hx => hqHash (hpath _ hx)
  have hpQm : '?' ∉ p.path := fun hx => hqQm (hpath _ hx)
  have hXmem : ∀ x ∈ p.netloc ++ p.path, x ∈ removeUnsafe (lstripC0 u) := by
    intro x hx
    rcases List.mem_append.mp hx with h1 | h1
    · exact hnClean x h1
    · exact hpClean x h1
  have hXsafe : ∀ x ∈ p.netloc ++ p.path,
      x ≠ '\t' ∧ x ≠ '\x0d' ∧ x ≠ '\n' :=
    fun x hx => clean_unsafe_free u x (hXmem x hx)
  have hXu : ∀ x ∈ p.netloc ++ p.path, x ∈ u :=
    fun x hx => clean_subset u x (hXmem x hx)
  have hXhash : '#' ∉ p.netloc ++ p.path := by
    intro hx
    rcases List.mem_append.mp hx with h1 | h1
    · exact absurd (hnDelim _ h1) (by rw [notDelim]; simp)
    · exact hpHash h1
  have hXqm : '?' ∉ p.netloc ++ p.path := by
    intro hx
    rcases List.mem_append.mp hx with h1 | h1
    · exact absurd (hnDelim _ h1) (by rw [notDelim]; simp)
    · exact hpQm h1
  have hXsemi : ';' ∉ p.netloc ++ p.path := fun hx => hsemi (hXu _ hx)
  have hXlb : '[' ∉ p.netloc ++ p.path := fun hx => hlb (hXu _ hx)
  have hXrb : ']' ∉ p.netloc ++ p.path := fun hx => hrb (hXu _ hx)
  have hrec : ∀ w : Str,
      (∀ x ∈ w, x ≠ '\t' ∧ x ≠ '\x0d' ∧ x ≠ '\n') → '#' ∉ w → '?' ∉ w →
      ';' ∉ w → '[' ∉ w → ']' ∉ w →
      urlparse (p.scheme ++ ':' :: '/' :: '/' :: w) =
        .ok ⟨p.scheme, w.takeWhile notDelim, w.dropWhile notDelim,
             [], [], []⟩ :=
    fun w h1 h2 h3 h4 h5 h6 =>
      urlparse_reconstruct p.scheme w hs hsProps hsHead h1 h2 h3 h4 h5 h6
  rw [normalize_url, hp]
  simp only [Except.map, Except.bind]
  by_cases hcond :
      p.scheme ++ (':' :: '/' :: '/' :: []) ++ p.netloc ++ p.path ≠
          p.scheme ++ (':' :: '/' :: '/' :: []) ++ p.netloc ++ ['/'] ∧
        lastIsSlash
          (p.scheme ++ (':' :: '/' :: '/' :: []) ++ p.netloc ++ p.path) =
          true
  · rw [if_pos hcond]
    have hNeq :
        p.scheme ++ (':' :: '/' :: '/' :: []) ++ p.netloc ++ p.path =
          (p.scheme ++ [':', '/', '/']) ++ (p.netloc ++ p.path) := by
      simp
    by_cases hY : rstripSlash (p.netloc ++ p.path) = []
    · have hslash : ∀ x ∈ p.netloc ++ p.path, x = '/' :=
        rstripSlash_eq_nil _ hY
      have hv :
          rstripSlash
            (p.scheme ++ (':' :: '/' :: '/' :: []) ++ p.netloc ++ p.path) =
            p.scheme ++ [':'] := by
        rw [hNeq]
        have hsplit2 :
            (p.scheme ++ [':', '/', '/']) ++ (p.netloc ++ p.path) =
              (p.scheme ++ [':']) ++ ('/' :: '/' :: (p.netloc ++ p.path)) := by
          simp
        rw [hsplit2, rstripSlash_append_slashes _ _ ?hsl]
        case hsl =>
          intro x hx
          rcases List.mem_cons.mp hx with h1 | h1
          · exact h1
          rcases List.mem_cons.mp h1 with h2 | h2
          · exact h2
          · exact hslash x h2
        exact rstripSlash_eq_self _ (by rw [List.getLastD_concat]; decide)
      rw [hv, normalize_url, urlparse_reconstruct_bare p.scheme hs hsProps hsHead]
      simp only [Except.map]
      rw [if_pos ?hc2]
      case hc2 =>
        constructor
        · intro heq
          have := congrArg List.length heq
          simp at this
        · rw [lastIsSlash]
          apply decide_eq_true
          rw [show p.scheme ++ (':' :: '/' :: '/' :: []) ++ [] ++ [] =
            (p.scheme ++ [':', '/']) ++ ['/'] from by simp]
          rw [List.getLastD_concat]
      rw [show p.scheme ++ (':' :: '/' :: '/' :: []) ++ [] ++ [] =
        (p.scheme ++ [':']) ++ ['/', '/'] from by simp]
      rw [rstripSlash_append_slashes _ _ (by intro x hx; simpa using hx)]
      rw [rstripSlash_eq_self _ (by rw [List.getLastD_concat]; decide)]
    · have hv :
          rstripSlash
            (p.scheme ++ (':' :: '/' :: '/' :: []) ++ p.netloc ++ p.path) =
            p.scheme ++ ':' :: '/' :: '/' ::
              rstripSlash (p.netloc ++ p.path) := by
        rw [hNeq, rstripSlash_append_of_ne _ _ hY]
        simp
      set Y := rstripSlash (p.netloc ++ p.path) with hYdef
      have hYsub : ∀ x ∈ Y, x ∈ p.netloc ++ p.path :=
        fun x hx => rstripSlash_subset _ x hx
      rw [hv, normalize_url,
        hrec Y (fun x hx => hXsafe x (hYsub x hx))
          (fun hx => hXhash (hYsub _ hx)) (fun hx => hXqm (hYsub _ hx))
          (fun hx => hXsemi (hYsub _ hx)) (fun hx => hXlb (hYsub _ hx))
          (fun hx => hXrb (hYsub _ hx))]
      simp only [Except.map]
      have hjoin :
          p.scheme ++ (':' :: '/' :: '/' :: []) ++ Y.takeWhile notDelim ++
              Y.dropWhile notDelim =
            p.scheme ++ ':' :: '/' :: '/' :: Y := by
        simp
      rw [hjoin]
      rw [if_neg ?hc3]
      case hc3 =>
        rintro ⟨_, hsl⟩
        rw [lastIsSlash] at hsl
        have hlast := of_decide_eq_true hsl
        rw [show p.scheme ++ ':' :: '/' :: '/' :: Y =
          (p.scheme ++ [':', '/', '/']) ++ Y from by simp] at hlast
        rw [getLastD_append_of_ne_nil _ _ hY] at hlast
        exact rstripSlash_getLast _ hY hlast
  · rw [if_neg hcond]
    rcases not_and_or.mp hcond with hNR | hsl
    · push_neg at hNR
      have hpathSlash : p.path = ['/'] := by
        have := hNR
        rw [List.append_assoc, List.append_assoc, List.append_assoc,
          List.append_assoc] at this
        have h2 := List.append_cancel_left this
        have h3 := List.append_cancel_left h2
        exact List.append_cancel_left h3
      have hNeq2 :
          p.scheme ++ (':' :: '/' :: '/' :: []) ++ p.netloc ++ p.path =
            p.scheme ++ ':' :: '/' :: '/' :: (p.netloc ++ p.path) := by
        simp
      rw [hNeq2, normalize_url, hrec (p.netloc ++ p.path) hXsafe hXhash hXqm
        hXsemi hXlb hXrb]
      simp only [Except.map]
      have htw0 : List.takeWhile notDelim ['/'] = [] := by decide
      have hdw0 : List.dropWhile notDelim ['/'] = ['/'] := by decide
      have htw : (p.netloc ++ p.path).takeWhile notDelim = p.netloc := by
        rw [List.takeWhile_append_of_pos hnDelim, hpathSlash, htw0,
          List.append_nil]
      have hdw : (p.netloc ++ p.path).dropWhile notDelim = p.path := by
        rw [List.dropWhile_append_of_pos hnDelim, hpathSlash, hdw0]
      rw [htw, hdw]
      rw [if_neg ?hc4]
      case hc4 =>
        rintro ⟨hne2, _⟩
        apply hne2
        rw [hpathSlash]
      rw [hNeq2]
    · rw [show p.scheme ++ (':' :: '/' :: '/' :: []) ++ p.netloc ++ p.path =
        p.scheme ++ ':' :: '/' :: '/' :: (p.netloc ++ p.path) from by simp,
        normalize_url, hrec (p.netloc ++ p.path) hXsafe hXhash hXqm hXsemi
          hXlb hXrb]
      simp only [Except.map]
      have hjoin2 :
          p.scheme ++ (':' :: '/' :: '/' :: []) ++
              (p.netloc ++ p.path).takeWhile notDelim ++
              (p.netloc ++ p.path).dropWhile notDelim =
            p.scheme ++ ':' :: '/' :: '/' :: (p.netloc ++ p.path) := by
        simp
      rw [hjoin2]
      rw [if_neg ?hc5]
      case hc5 =>
        rintro ⟨_, hsl2⟩
        apply hsl
        rw [show p.scheme ++ (':' :: '/' :: '/' :: []) ++ p.netloc ++ p.path =
          p.scheme ++ ':' :: '/' :: '/' :: (p.netloc ++ p.path) from by simp]
        exact hsl2

theorem c8_idempotent_amended_witness :
    (normalize_url "https://example.com/a/".data).bind normalize_url =
      normalize_url "https://example.com/a/".data :=
  c8_idempotent_amended "https://example.com/a/".data
    ⟨"https".data, "example.com".data, "/a/".data, [], [], []⟩
    (by decide) (by decide) (by decide) (by decide) (by decide) (by decide)

end Crawler


